import Mathlib

set_option linter.unnecessarySeqFocus false
set_option linter.unnecessarySimpa false
set_option linter.unusedVariables false

/-!
Verification development for the SBMM planning tool's spatial analytics engine.

The definitions below are a shallow embedding of the JavaScript source:

* geographic points carry rational latitude/longitude (longitude plays the
  x role, latitude the y role, exactly as in the source's cross products);
* number arithmetic is embedded as exact rational (or, where the source
  takes square roots, real) arithmetic;
* the Leaflet helper L.latLng(...).distanceTo(...) is an external library
  call, so scanning/validation code that consumes it is parameterised by a
  distance function;
* the AppConfig.coordConversion constants live outside the analysed source
  tree, so they are passed as an explicit record of scale factors.
-/

/-- Geographic point in degrees; in all cross products the source treats
longitude as x and latitude as y. -/
structure Pt where
  lat : ℚ
  lon : ℚ
deriving DecidableEq

instance : Inhabited Pt := ⟨⟨0, 0⟩⟩

/-- Modelled from the spec: the repository's AppConfig.coordConversion record
(meters-per-degree-latitude, meters-per-degree-longitude, feet-per-meter) is
configuration code outside src/; the spec fixes only that these are fixed
positive scale constants, so they are threaded through as parameters. -/
structure Conv where
  metersPerDegLat : ℚ
  metersPerDegLon : ℚ
  feetToMeters : ℚ
deriving DecidableEq

/-- Sample point carrying a value, as consumed by computeIDW and the
hot-zone scan (lat, lon, value). -/
structure IdwPt where
  lat : ℚ
  lon : ℚ
  value : ℚ
deriving DecidableEq

/-- Loop body of computeIDW (src/js/app.js): accumulates numerator and
denominator over the sample list; an early return fires when the squared
planar distance to a sample is below 1 (square meter). -/
def idwLoop (conv : Conv) (lat lon : ℚ) : List IdwPt → ℚ → ℚ → ℚ
  | [], numerator, denominator =>
      if denominator > 0 then numerator / denominator else 0
  | p :: rest, numerator, denominator =>
      let dLat := (lat - p.lat) * conv.metersPerDegLat
      let dLon := (lon - p.lon) * conv.metersPerDegLon
      let distSq := dLat * dLat + dLon * dLon
      if distSq < 1 then p.value
      else idwLoop conv lat lon rest (numerator + p.value * (1 / distSq))
        (denominator + 1 / distSq)

/-- computeIDW (src/js/app.js lines 872-893): inverse-distance-weighted
value at a query coordinate, power p = 2. -/
def computeIDW (conv : Conv) (lat lon : ℚ) (points : List IdwPt) : ℚ :=
  idwLoop conv lat lon points 0 0

/-- cross2D (src/js/app.js lines 945-947): 2D cross product of vectors OA
and OB, treating lon as x and lat as y. -/
def cross2D (O A B : Pt) : ℚ :=
  (A.lon - O.lon) * (B.lat - O.lat) - (A.lat - O.lat) * (B.lon - O.lon)

/-- Comparator of the sort in computeConvexHull: ascending by longitude,
ties broken by ascending latitude. -/
def lexLe (p q : Pt) : Prop :=
  p.lon < q.lon ∨ (p.lon = q.lon ∧ p.lat ≤ q.lat)

instance : DecidableRel lexLe := fun p q => by unfold lexLe; infer_instance

/-- The source sorts a copy of the input with a consistent comparator
(Array.prototype.sort, stable); a stable comparison sort is modelled by
insertion sort. -/
def sortPts (l : List Pt) : List Pt := List.insertionSort lexLe l

/-- Inner while loop of computeConvexHull: pop chain points while the top
two and the incoming point fail the strict left-turn test.  The chain list
is kept top-first (head is the most recently pushed point). -/
def popBad (p : Pt) : List Pt → List Pt
  | a :: b :: t => if cross2D b a p ≤ 0 then popBad p (b :: t) else a :: b :: t
  | l => l

/-- Push step of the monotone-chain scan. -/
def chainStep (st : List Pt) (p : Pt) : List Pt := p :: popBad p st

/-- One half-hull pass of computeConvexHull (the for loop over sorted
points); result is top-first. -/
def buildChain (pts : List Pt) : List Pt := pts.foldl chainStep []

/-- computeConvexHull (src/js/app.js lines 906-939), Andrew's monotone
chain: below 3 points the input is returned unchanged; otherwise lower and
upper chains are built over the lex-sorted points and concatenated with the
duplicated endpoints dropped. -/
def computeConvexHull (points : List Pt) : List Pt :=
  if points.length < 3 then points
  else
    let sorted := sortPts points
    let lower := (buildChain sorted).reverse
    let upper := (buildChain sorted.reverse).reverse
    lower.dropLast ++ upper.dropLast

/-- Edge test of pointInConvexHull: cross product of the directed edge a→b
with the vector from a to the query point. -/
def edgeCrossAt (a b : Pt) (lat lon : ℚ) : ℚ :=
  (b.lon - a.lon) * (lat - a.lat) - (b.lat - a.lat) * (lon - a.lon)

/-- pointInConvexHull (src/js/app.js lines 1014-1025): false for hulls of
fewer than 3 vertices; otherwise true iff the point is on the non-negative
side of every directed edge hull[i] → hull[(i+1) % n]. -/
def pointInConvexHull (lat lon : ℚ) (hull : List Pt) : Bool :=
  if hull.length < 3 then false
  else (List.range hull.length).all (fun i =>
    !(decide (edgeCrossAt (hull.getD i default)
        (hull.getD ((i + 1) % hull.length) default) lat lon < 0)))

/-- RGB color with integer channels, as produced by Math.round in
lerpColor. -/
structure ColorRGB where
  r : ℤ
  g : ℤ
  b : ℤ
deriving DecidableEq

/-- Gradient stop constants of src/js/app.js lines 662-665. -/
def C_GREEN : ColorRGB := ⟨114, 175, 38⟩

/-- Yellow gradient stop (at thresh.low). -/
def C_YELLOW : ColorRGB := ⟨240, 208, 0⟩

/-- Orange gradient stop (at thresh.high). -/
def C_ORANGE : ColorRGB := ⟨240, 147, 43⟩

/-- Red gradient stop (at and beyond the overshoot point). -/
def C_RED : ColorRGB := ⟨214, 62, 42⟩

/-- JavaScript Math.round: round half towards positive infinity. -/
def jsRound (x : ℚ) : ℤ := ⌊x + 1 / 2⌋

/-- lerpColor (src/js/app.js lines 1039-1046): per-channel linear
interpolation with the factor clamped to [0, 1]. -/
def lerpColor (c1 c2 : ColorRGB) (t : ℚ) : ColorRGB :=
  let tc := max 0 (min 1 t)
  ⟨jsRound (c1.r + (c2.r - c1.r) * tc),
   jsRound (c1.g + (c2.g - c1.g) * tc),
   jsRound (c1.b + (c2.b - c1.b) * tc)⟩

/-- Two-tier analyte threshold (low = PMB, high = ROD). -/
structure Threshold where
  low : ℚ
  high : ℚ
deriving DecidableEq

/-- valueToColor (src/js/app.js lines 1065-1094): piecewise linear gradient
through the stops, with a collapsed band for single-threshold analytes. -/
def valueToColor (value : ℚ) (thresh : Threshold) : ColorRGB :=
  if value ≤ 0 then C_GREEN
  else if thresh.low = thresh.high then
    if value < thresh.low then lerpColor C_GREEN C_YELLOW (value / thresh.low)
    else lerpColor C_YELLOW C_RED (min ((value - thresh.high) / thresh.high) 1)
  else if value < thresh.low then
    lerpColor C_GREEN C_YELLOW (value / thresh.low)
  else if value < thresh.high then
    lerpColor C_YELLOW C_ORANGE ((value - thresh.low) / (thresh.high - thresh.low))
  else
    lerpColor C_ORANGE C_RED
      (min ((value - thresh.high) / (thresh.high - thresh.low)) 1)

/-- Minimum of a list of rationals with the head as seed (Math.min applied
to a non-empty argument list). -/
def minList : List ℚ → ℚ
  | [] => 0
  | x :: t => t.foldl min x

/-- Maximum of a list of rationals with the head as seed (Math.max applied
to a non-empty argument list). -/
def maxList : List ℚ → ℚ
  | [] => 0
  | x :: t => t.foldl max x

/-- Padded lower bound of the scan: Math.min over the coordinates minus
the fixed 0.0005 degree pad. -/
def padMin (l : List ℚ) : ℚ := minList l - 0.0005

/-- Padded upper bound of the scan: Math.max over the coordinates plus the
fixed 0.0005 degree pad. -/
def padMax (l : List ℚ) : ℚ := maxList l + 0.0005

/-- Fuelled translation of the scanning loop
for (v = lo; v < hi; v += s) of the grid builders; the fuel below is always
sufficient, so the produced list is exactly the sequence of loop values. -/
def gridStartsAux (s hi : ℚ) : ℕ → ℚ → List ℚ
  | 0, _ => []
  | fuel + 1, lo => if lo < hi then lo :: gridStartsAux s hi fuel (lo + s) else []

/-- Number of iterations of the scanning loop when the step is positive. -/
def gridCount (lo hi s : ℚ) : ℕ := (⌈(hi - lo) / s⌉).toNat

/-- Sequence of loop start values lo, lo+s, lo+2s, ... while < hi. -/
def gridStarts (lo hi s : ℚ) : List ℚ := gridStartsAux s hi (gridCount lo hi s) lo

/-- Classification of a gap-analysis cell by its sample count
(src/js/crosssection.js lines 1362-1369). -/
inductive GapClass
  | red
  | yellow
  | green
deriving DecidableEq

/-- Grid cell emitted by createGapGrid: rectangle bounds, aggregate count
and classification. -/
structure GapCell where
  latMin : ℚ
  lonMin : ℚ
  latMax : ℚ
  lonMax : ℚ
  count : ℕ
  cls : GapClass
deriving DecidableEq

/-- Gap classification: 0 samples red, 1-2 yellow, 3+ green. -/
def classifyGap (count : ℕ) : GapClass :=
  if count = 0 then .red else if count ≤ 2 then .yellow else .green

/-- createGapGrid (src/js/crosssection.js lines 1315-1377).  The Leaflet
distanceTo call is the parameter dist (center lat, center lon, sample lat,
sample lon in that order); the density sample list is the base list plus,
optionally, the planned points, as assembled by the source. -/
def createGapGrid (dist : ℚ → ℚ → ℚ → ℚ → ℚ) (conv : Conv) (gridSizeFt : ℚ)
    (baseSamples plannedPoints : List Pt) (includePlanned : Bool) : List GapCell :=
  let densitySamples := baseSamples ++ (if includePlanned then plannedPoints else [])
  let minLat := padMin (baseSamples.map Pt.lat)
  let maxLat := padMax (baseSamples.map Pt.lat)
  let minLon := padMin (baseSamples.map Pt.lon)
  let maxLon := padMax (baseSamples.map Pt.lon)
  let sizeMeters := gridSizeFt * conv.feetToMeters
  let gridSizeLat := sizeMeters / conv.metersPerDegLat
  let gridSizeLon := sizeMeters / conv.metersPerDegLon
  let searchRadius := sizeMeters
  ((gridStarts minLat maxLat gridSizeLat).map (fun lat =>
    (gridStarts minLon maxLon gridSizeLon).map (fun lon =>
      let centerLat := lat + gridSizeLat / 2
      let centerLon := lon + gridSizeLon / 2
      let count := (densitySamples.filter (fun samp =>
        dist centerLat centerLon samp.lat samp.lon ≤ searchRadius)).length
      GapCell.mk lat lon (lat + gridSizeLat) (lon + gridSizeLon) count
        (classifyGap count)))).flatten

/-- Hot-zone classification colors (src/js/crosssection.js lines
1472-1479). -/
inductive HZClass
  | red
  | orange
  | green
deriving DecidableEq

/-- Grid cell emitted by createHotZoneGrid: rectangle bounds, the maxVal
aggregate and its classification. -/
structure HZCell where
  latMin : ℚ
  lonMin : ℚ
  latMax : ℚ
  lonMax : ℚ
  maxVal : ℚ
  cls : HZClass
deriving DecidableEq

/-- Hot-zone classification: above high red, above low orange, else green. -/
def classifyHZ (thresh : Threshold) (maxVal : ℚ) : HZClass :=
  if maxVal > thresh.high then .red
  else if maxVal > thresh.low then .orange
  else .green

/-- Sample record as consumed by the hot-zone collection step: position,
the sampled flag (2025 samples only appear when sampled) and the result of
Utils.getSampleValue for the current analyte (null and undefined are
Option.none). -/
structure HZSample where
  lat : ℚ
  lon : ℚ
  sampled : Bool
  val : Option ℚ
deriving DecidableEq

/-- Collection step of createHotZoneGrid: 2025 samples filtered by the
sampled flag, then both lists filtered to defined analyte values. -/
def collectHZ (samples2025 eaSamples : List HZSample) : List IdwPt :=
  (samples2025.filter HZSample.sampled).filterMap
    (fun s => s.val.map (fun v => IdwPt.mk s.lat s.lon v)) ++
  eaSamples.filterMap (fun s => s.val.map (fun v => IdwPt.mk s.lat s.lon v))

/-- Per-cell body of the createHotZoneGrid loops: cells with no sample in
range are skipped (continue); otherwise maxVal starts at 0 and takes every
in-range sample value that exceeds it. -/
def hotZoneCell (dist : ℚ → ℚ → ℚ → ℚ → ℚ) (thresh : Threshold)
    (allSamples : List IdwPt) (searchRadius gridSizeLat gridSizeLon lat lon : ℚ) :
    Option HZCell :=
  let centerLat := lat + gridSizeLat / 2
  let centerLon := lon + gridSizeLon / 2
  let inRange := allSamples.filter (fun s =>
    dist centerLat centerLon s.lat s.lon ≤ searchRadius)
  if inRange.isEmpty then none
  else
    let maxVal := (inRange.map IdwPt.value).foldl max 0
    some (HZCell.mk lat lon (lat + gridSizeLat) (lon + gridSizeLon) maxVal
      (classifyHZ thresh maxVal))

/-- createHotZoneGrid (src/js/crosssection.js lines 1418-1487). -/
def createHotZoneGrid (dist : ℚ → ℚ → ℚ → ℚ → ℚ) (conv : Conv)
    (gridSizeFt : ℚ) (thresh : Threshold) (samples2025 eaSamples : List HZSample) :
    List HZCell :=
  let allSamples := collectHZ samples2025 eaSamples
  if allSamples.isEmpty then []
  else
    let minLat := padMin (allSamples.map IdwPt.lat)
    let maxLat := padMax (allSamples.map IdwPt.lat)
    let minLon := padMin (allSamples.map IdwPt.lon)
    let maxLon := padMax (allSamples.map IdwPt.lon)
    let sizeMeters := gridSizeFt * conv.feetToMeters
    let gridSizeLat := sizeMeters / conv.metersPerDegLat
    let gridSizeLon := sizeMeters / conv.metersPerDegLon
    ((gridStarts minLat maxLat gridSizeLat).map (fun lat =>
      (gridStarts minLon maxLon gridSizeLon).filterMap (fun lon =>
        hotZoneCell dist thresh allSamples sizeMeters gridSizeLat gridSizeLon lat lon))).flatten

/-- handleTransectClick (src/js/crosssection.js lines 317-368), reduced to
its effect on the transect point list: a full transect is cleared before a
new first point; a second point closer than 3 m (Leaflet distanceTo,
parameter dist) is popped again; otherwise both points are kept and the
cross-section proceeds. -/
def handleTransectClick (dist : Pt → Pt → ℚ) (transectPoints : List Pt) (p : Pt) :
    List Pt :=
  let pts := if 2 ≤ transectPoints.length then [] else transectPoints
  let pts2 := pts ++ [p]
  if pts2.length = 2 then
    if dist (pts2.getD 0 default) (pts2.getD 1 default) < 3 then pts2.dropLast
    else pts2
  else pts2

/-- Column glyph width constant of the cross-section renderer
(src/js/crosssection.js line 30). -/
def COLUMN_WIDTH_PX : ℚ := 24

/-- Inner pass of resolveOverlaps over the sorted positions: each adjacent
pair closer than minGap is pushed symmetrically apart; the Bool records
whether any pair moved.  prev is the current value of the left element of
the pair under examination. -/
def relaxPass (minGap : ℚ) : ℚ → List ℚ → List ℚ × Bool
  | prev, [] => ([prev], false)
  | prev, x :: t =>
      let gap := x - prev
      if gap < minGap then
        let shift := (minGap - gap) / 2
        let r := relaxPass minGap (x + shift) t
        ((prev - shift) :: r.1, true)
      else
        let r := relaxPass minGap x t
        (prev :: r.1, r.2)

/-- One pass over a (possibly empty) position list. -/
def runPass (minGap : ℚ) : List ℚ → List ℚ × Bool
  | [] => ([], false)
  | x :: t => relaxPass minGap x t

/-- The bounded relaxation loop of resolveOverlaps: at most 5 passes,
stopping early when a pass reports no change. -/
def relaxLoop (minGap : ℚ) : ℕ → List ℚ → List ℚ
  | 0, l => l
  | n + 1, l =>
      let r := runPass minGap l
      if r.2 then relaxLoop minGap n r.1 else r.1

/-- Final clamp of resolveOverlaps: keep each column's half-width inside
the plot bounds. -/
def clampCol (plotLeft plotRight x : ℚ) : ℚ :=
  let halfCol := COLUMN_WIDTH_PX / 2
  let x1 := if x - halfCol < plotLeft then plotLeft + halfCol else x
  if x1 + halfCol > plotRight then plotRight - halfCol else x1

/-- resolveOverlaps (src/js/crosssection.js lines 1032-1061): lists of at
most one position are returned untouched; otherwise sort, run the bounded
relaxation loop, and clamp every position to the plot bounds. -/
def resolveOverlaps (positions : List ℚ) (minGap plotLeft plotRight : ℚ) : List ℚ :=
  if positions.length ≤ 1 then positions
  else
    (relaxLoop minGap 5 (List.insertionSort (fun a b => a ≤ b) positions)).map
      (clampCol plotLeft plotRight)

/-! ### Generic helper lemmas -/

/-- Rounding an integer-valued rational returns that integer. -/
theorem jsRound_intCast (z : ℤ) : jsRound (z : ℚ) = z := by
  unfold jsRound
  rw [Int.floor_eq_iff]
  constructor <;> norm_num

/-- Interpolating with factor 0 returns the first color unchanged. -/
theorem lerpColor_zero (c1 c2 : ColorRGB) : lerpColor c1 c2 0 = c1 := by
  unfold lerpColor
  simp only [min_self, max_eq_left, min_eq_right zero_le_one, max_eq_right le_rfl]
  norm_num [jsRound_intCast]

/-- The seeded fold with min is below its seed. -/
theorem foldl_min_le_seed (l : List ℚ) (a : ℚ) : l.foldl min a ≤ a := by
  induction l generalizing a with
  | nil => exact le_rfl
  | cons x t ih =>
      calc (x :: t).foldl min a = t.foldl min (min a x) := rfl
      _ ≤ min a x := ih _
      _ ≤ a := min_le_left _ _

/-- The seeded fold with min is below every list member. -/
theorem foldl_min_le_mem (l : List ℚ) (a y : ℚ) (hy : y ∈ l) : l.foldl min a ≤ y := by
  induction l generalizing a with
  | nil => cases hy
  | cons x t ih =>
      rcases List.mem_cons.mp hy with rfl | hy'
      · calc (y :: t).foldl min a = t.foldl min (min a y) := rfl
          _ ≤ min a y := foldl_min_le_seed _ _
          _ ≤ y := min_le_right _ _
      · exact ih _ hy'

/-- The seeded fold with max is above its seed. -/
theorem le_foldl_max_seed (l : List ℚ) (a : ℚ) : a ≤ l.foldl max a := by
  induction l generalizing a with
  | nil => exact le_rfl
  | cons x t ih =>
      calc a ≤ max a x := le_max_left _ _
      _ ≤ t.foldl max (max a x) := ih _
      _ = (x :: t).foldl max a := rfl

/-- The seeded fold with max is above every list member. -/
theorem le_foldl_max_mem (l : List ℚ) (a y : ℚ) (hy : y ∈ l) : y ≤ l.foldl max a := by
  induction l generalizing a with
  | nil => cases hy
  | cons x t ih =>
      rcases List.mem_cons.mp hy with rfl | hy'
      · calc y ≤ max a y := le_max_right _ _
          _ ≤ t.foldl max (max a y) := le_foldl_max_seed _ _
          _ = (y :: t).foldl max a := rfl
      · exact ih _ hy'

/-- minList bounds every member of the list from below. -/
theorem minList_le (l : List ℚ) (y : ℚ) (hy : y ∈ l) : minList l ≤ y := by
  cases l with
  | nil => cases hy
  | cons x t =>
      rcases List.mem_cons.mp hy with rfl | hy'
      · exact foldl_min_le_seed _ _
      · exact foldl_min_le_mem _ _ _ hy'

/-- maxList bounds every member of the list from above. -/
theorem le_maxList (l : List ℚ) (y : ℚ) (hy : y ∈ l) : y ≤ maxList l := by
  cases l with
  | nil => cases hy
  | cons x t =>
      rcases List.mem_cons.mp hy with rfl | hy'
      · exact le_foldl_max_seed _ _
      · exact le_foldl_max_mem _ _ _ hy'

/-! ### C3 and C4: IDW interpolation -/

/-- Squared planar distance in meters between the query coordinate and a
sample, exactly as computed in the computeIDW loop. -/
def distSqM (conv : Conv) (lat lon : ℚ) (p : IdwPt) : ℚ :=
  let dLat := (lat - p.lat) * conv.metersPerDegLat
  let dLon := (lon - p.lon) * conv.metersPerDegLon
  dLat * dLat + dLon * dLon

/-- The IDW loop body's local distSq coincides with distSqM. -/
theorem idwLoop_cons (conv : Conv) (lat lon : ℚ) (p : IdwPt) (rest : List IdwPt)
    (numerator denominator : ℚ) :
    idwLoop conv lat lon (p :: rest) numerator denominator =
      if distSqM conv lat lon p < 1 then p.value
      else idwLoop conv lat lon rest
        (numerator + p.value * (1 / distSqM conv lat lon p))
        (denominator + 1 / distSqM conv lat lon p) := rfl

/-- If some sample is within 1 m of the query, the loop returns the value
of the first such sample regardless of the accumulators. -/
theorem idwLoop_near (conv : Conv) (lat lon : ℚ) (points : List IdwPt)
    (h : ∃ p ∈ points, distSqM conv lat lon p < 1) :
    ∀ numerator denominator : ℚ,
      ∃ p ∈ points, distSqM conv lat lon p < 1 ∧
        idwLoop conv lat lon points numerator denominator = p.value := by
  induction points with
  | nil => rcases h with ⟨p, hp, _⟩; cases hp
  | cons q rest ih =>
      intro numerator denominator
      by_cases hq : distSqM conv lat lon q < 1
      · refine ⟨q, List.mem_cons_self _ _, hq, ?_⟩
        rw [idwLoop_cons, if_pos hq]
      · rcases h with ⟨p, hp, hplt⟩
        rcases List.mem_cons.mp hp with rfl | hp'
        · exact absurd hplt hq
        · rcases ih ⟨p, hp', hplt⟩
            (numerator + q.value * (1 / distSqM conv lat lon q))
            (denominator + 1 / distSqM conv lat lon q) with ⟨r, hr, hrlt, hrv⟩
          refine ⟨r, List.mem_cons_of_mem _ hr, hrlt, ?_⟩
          rw [idwLoop_cons, if_neg hq, hrv]

/-- C3: for every non-empty sample list and query coordinate whose planar
distance to some sample is below 1 m (squared distance below 1), computeIDW
returns exactly a nearby sample's value (the first such sample in list
order) instead of a weighted average. -/
theorem computeIDW_exact_near_sample (conv : Conv) (lat lon : ℚ)
    (points : List IdwPt) (h : ∃ p ∈ points, distSqM conv lat lon p < 1) :
    ∃ p ∈ points, distSqM conv lat lon p < 1 ∧
      computeIDW conv lat lon points = p.value :=
  idwLoop_near conv lat lon points h 0 0

/-- Witness for C3 at a concrete coincident sample. -/
theorem computeIDW_exact_near_sample_witness :
    (∃ p ∈ [IdwPt.mk 0 0 5], distSqM ⟨1, 1, 1⟩ 0 0 p < 1) ∧
      ∃ p ∈ [IdwPt.mk 0 0 5], distSqM ⟨1, 1, 1⟩ 0 0 p < 1 ∧
        computeIDW ⟨1, 1, 1⟩ 0 0 [IdwPt.mk 0 0 5] = p.value :=
  ⟨⟨IdwPt.mk 0 0 5, by norm_num [distSqM]⟩,
   computeIDW_exact_near_sample ⟨1, 1, 1⟩ 0 0 [IdwPt.mk 0 0 5]
     ⟨IdwPt.mk 0 0 5, by norm_num [distSqM]⟩⟩

/-- Accumulator invariant for the IDW loop: when the accumulated numerator
is bracketed by m and M times the denominator, so is the final value. -/
theorem idwLoop_bounds (conv : Conv) (lat lon : ℚ) (m M : ℚ) :
    ∀ (points : List IdwPt) (numerator denominator : ℚ),
      0 ≤ denominator →
      m * denominator ≤ numerator →
      numerator ≤ M * denominator →
      (0 < denominator ∨ points ≠ []) →
      (∀ p ∈ points, m ≤ p.value ∧ p.value ≤ M) →
      m ≤ idwLoop conv lat lon points numerator denominator ∧
        idwLoop conv lat lon points numerator denominator ≤ M := by
  intro points
  induction points with
  | nil =>
      intro numerator denominator hd hm hM hne _
      rcases hne with hpos | hne
      · have heq : idwLoop conv lat lon [] numerator denominator =
            numerator / denominator := by
          unfold idwLoop; rw [if_pos hpos]
        rw [heq]
        exact ⟨(le_div_iff₀ hpos).mpr hm, (div_le_iff₀ hpos).mpr hM⟩
      · exact absurd rfl hne
  | cons q rest ih =>
      intro numerator denominator hd hm hM _ hvals
      rw [idwLoop_cons]
      by_cases hq : distSqM conv lat lon q < 1
      · rw [if_pos hq]
        exact hvals q (List.mem_cons_self _ _)
      · rw [if_neg hq]
        have hds : (1 : ℚ) ≤ distSqM conv lat lon q := le_of_not_lt hq
        have hdspos : (0 : ℚ) < distSqM conv lat lon q := lt_of_lt_of_le one_pos hds
        have hw : (0 : ℚ) < 1 / distSqM conv lat lon q := by positivity
        have hqv := hvals q (List.mem_cons_self _ _)
        refine ih _ _ (by linarith) ?_ ?_ (Or.inl (by linarith)) ?_
        · have : m * (1 / distSqM conv lat lon q) ≤
              q.value * (1 / distSqM conv lat lon q) :=
            mul_le_mul_of_nonneg_right hqv.1 (le_of_lt hw)
          calc m * (denominator + 1 / distSqM conv lat lon q)
              = m * denominator + m * (1 / distSqM conv lat lon q) := by ring
            _ ≤ numerator + q.value * (1 / distSqM conv lat lon q) := by linarith
        · have : q.value * (1 / distSqM conv lat lon q) ≤
              M * (1 / distSqM conv lat lon q) :=
            mul_le_mul_of_nonneg_right hqv.2 (le_of_lt hw)
          calc numerator + q.value * (1 / distSqM conv lat lon q)
              ≤ M * denominator + M * (1 / distSqM conv lat lon q) := by linarith
            _ = M * (denominator + 1 / distSqM conv lat lon q) := by ring
        · exact fun p hp => hvals p (List.mem_cons_of_mem _ hp)

/-- C4: for every non-empty sample list and any query coordinate, the IDW
value lies between the minimum and maximum of the sample values. -/
theorem computeIDW_bounds (conv : Conv) (lat lon : ℚ) (points : List IdwPt)
    (h : points ≠ []) :
    minList (points.map IdwPt.value) ≤ computeIDW conv lat lon points ∧
      computeIDW conv lat lon points ≤ maxList (points.map IdwPt.value) := by
  refine idwLoop_bounds conv lat lon _ _ points 0 0 le_rfl (by simp) (by simp)
    (Or.inr h) ?_
  intro p hp
  exact ⟨minList_le _ _ (List.mem_map_of_mem IdwPt.value hp),
    le_maxList _ _ (List.mem_map_of_mem IdwPt.value hp)⟩

/-- Witness for C4 on a two-sample list. -/
theorem computeIDW_bounds_witness :
    ([IdwPt.mk 0 0 2, IdwPt.mk 0 10 6] ≠ []) ∧
      (minList ([IdwPt.mk 0 0 2, IdwPt.mk 0 10 6].map IdwPt.value) ≤
          computeIDW ⟨1, 1, 1⟩ 0 5 [IdwPt.mk 0 0 2, IdwPt.mk 0 10 6] ∧
        computeIDW ⟨1, 1, 1⟩ 0 5 [IdwPt.mk 0 0 2, IdwPt.mk 0 10 6] ≤
          maxList ([IdwPt.mk 0 0 2, IdwPt.mk 0 10 6].map IdwPt.value)) :=
  ⟨by simp, computeIDW_bounds ⟨1, 1, 1⟩ 0 5 _ (by simp)⟩

/-! ### C5: color mapping boundary stops -/

/-- C5: for thresholds with 0 < low ≤ high, the boundary inputs hit the
gradient stops exactly: low maps to the yellow stop, 0 maps to the green
stop, and for dual-threshold analytes high maps to the orange stop. -/
theorem valueToColor_boundary_stops (thresh : Threshold)
    (hlow : 0 < thresh.low) (hle : thresh.low ≤ thresh.high) :
    valueToColor thresh.low thresh = C_YELLOW ∧
      valueToColor 0 thresh = C_GREEN ∧
      (thresh.low < thresh.high → valueToColor thresh.high thresh = C_ORANGE) := by
  have hhigh : 0 < thresh.high := lt_of_lt_of_le hlow hle
  refine ⟨?_, ?_, ?_⟩
  · unfold valueToColor
    rw [if_neg (not_le.mpr hlow)]
    by_cases heq : thresh.low = thresh.high
    · rw [if_pos heq, if_neg (lt_irrefl thresh.low), heq, sub_self, zero_div]
      rw [min_eq_left zero_le_one]
      exact lerpColor_zero _ _
    · rw [if_neg heq, if_neg (lt_irrefl thresh.low), if_pos (lt_of_le_of_ne hle heq),
        sub_self, zero_div]
      exact lerpColor_zero _ _
  · unfold valueToColor
    rw [if_pos le_rfl]
  · intro hlt
    unfold valueToColor
    rw [if_neg (not_le.mpr hhigh), if_neg (ne_of_lt hlt), if_neg (not_lt.mpr hle),
      if_neg (lt_irrefl thresh.high), sub_self, zero_div, min_eq_left zero_le_one]
    exact lerpColor_zero _ _

/-- Witness for C5 at the dual threshold (low 1, high 2). -/
theorem valueToColor_boundary_stops_witness :
    ((0 : ℚ) < (Threshold.mk 1 2).low ∧ (Threshold.mk 1 2).low ≤ (Threshold.mk 1 2).high) ∧
      (valueToColor (Threshold.mk 1 2).low (Threshold.mk 1 2) = C_YELLOW ∧
        valueToColor 0 (Threshold.mk 1 2) = C_GREEN ∧
        ((Threshold.mk 1 2).low < (Threshold.mk 1 2).high →
          valueToColor (Threshold.mk 1 2).high (Threshold.mk 1 2) = C_ORANGE)) :=
  ⟨⟨by norm_num, by norm_num⟩,
   valueToColor_boundary_stops (Threshold.mk 1 2) (by norm_num) (by norm_num)⟩

/-! ### C7: transect minimum length -/

/-- Simple planar substitute metric used to instantiate the external
distance parameter in witnesses. -/
def distL1 (p q : Pt) : ℚ := |q.lat - p.lat| + |q.lon - p.lon|

/-- C7: with one transect point placed, a second click closer than 3 m is
discarded (the point list stays a singleton, so no cross-section is
produced), while a second click at 3 m or more is kept and the transect is
complete. -/
theorem transect_min_length (dist : Pt → Pt → ℚ) (a b : Pt) :
    (dist a b < 3 → handleTransectClick dist [a] b = [a]) ∧
      (3 ≤ dist a b → handleTransectClick dist [a] b = [a, b]) := by
  constructor
  · intro h
    unfold handleTransectClick
    norm_num [h]
  · intro h
    unfold handleTransectClick
    norm_num [not_lt.mpr h]

/-- Witness for C7: 2 m clicks are rejected, 5 m clicks accepted. -/
theorem transect_min_length_witness :
    (distL1 ⟨0, 0⟩ ⟨0, 2⟩ < 3 ∧ handleTransectClick distL1 [⟨0, 0⟩] ⟨0, 2⟩ = [⟨0, 0⟩]) ∧
      (3 ≤ distL1 ⟨0, 0⟩ ⟨0, 5⟩ ∧
        handleTransectClick distL1 [⟨0, 0⟩] ⟨0, 5⟩ = [⟨0, 0⟩, ⟨0, 5⟩]) :=
  ⟨⟨by norm_num [distL1], (transect_min_length distL1 ⟨0, 0⟩ ⟨0, 2⟩).1 (by norm_num [distL1])⟩,
   ⟨by norm_num [distL1], (transect_min_length distL1 ⟨0, 0⟩ ⟨0, 5⟩).2 (by norm_num [distL1])⟩⟩

/-! ### C10: hull vertices come from the input -/

/-- Popping preserves membership: the kept chain is made of old chain
points. -/
theorem mem_popBad (p : Pt) : ∀ st : List Pt, ∀ v ∈ popBad p st, v ∈ st := by
  intro st
  induction st with
  | nil => intro v hv; simpa [popBad] using hv
  | cons a t ih =>
      intro v hv
      cases t with
      | nil => simpa [popBad] using hv
      | cons b t' =>
          unfold popBad at hv
          by_cases hc : cross2D b a p ≤ 0
          · rw [if_pos hc] at hv
            exact List.mem_cons_of_mem _ (ih v hv)
          · rw [if_neg hc] at hv
            exact hv

/-- Every point of the folded chain comes from the seed chain or from the
processed list. -/
theorem mem_foldl_chainStep (xs : List Pt) :
    ∀ (C : List Pt) (v : Pt), v ∈ xs.foldl chainStep C → v ∈ C ∨ v ∈ xs := by
  induction xs with
  | nil => intro C v hv; exact Or.inl hv
  | cons x t ih =>
      intro C v hv
      rcases ih (chainStep C x) v hv with hC | ht
      · unfold chainStep at hC
        rcases List.mem_cons.mp hC with rfl | hpop
        · exact Or.inr (List.mem_cons_self _ _)
        · exact Or.inl (mem_popBad x C v hpop)
      · exact Or.inr (List.mem_cons_of_mem _ ht)

/-- Chain points come from the processed list. -/
theorem mem_buildChain (xs : List Pt) (v : Pt) (hv : v ∈ buildChain xs) : v ∈ xs := by
  rcases mem_foldl_chainStep xs [] v hv with h | h
  · cases h
  · exact h

/-- Sorting preserves the member set. -/
theorem mem_sortPts (l : List Pt) (v : Pt) (hv : v ∈ sortPts l) : v ∈ l :=
  (List.perm_insertionSort lexLe l).mem_iff.mp hv

/-- C10: every vertex of the polygon returned by computeConvexHull is one
of the input points; the hull construction never invents coordinates. -/
theorem hull_vertices_from_input (points : List Pt) :
    ∀ v ∈ computeConvexHull points, v ∈ points := by
  intro v hv
  unfold computeConvexHull at hv
  by_cases hlen : points.length < 3
  · rw [if_pos hlen] at hv
    exact hv
  · rw [if_neg hlen] at hv
    rcases List.mem_append.mp hv with hlo | hup
    · have h1 : v ∈ (buildChain (sortPts points)).reverse :=
        (List.dropLast_sublist _).mem hlo
      have h2 : v ∈ buildChain (sortPts points) := List.mem_reverse.mp h1
      exact mem_sortPts points v (mem_buildChain _ v h2)
    · have h1 : v ∈ (buildChain (sortPts points).reverse).reverse :=
        (List.dropLast_sublist _).mem hup
      have h2 : v ∈ buildChain (sortPts points).reverse := List.mem_reverse.mp h1
      have h3 : v ∈ (sortPts points).reverse := mem_buildChain _ v h2
      exact mem_sortPts points v (List.mem_reverse.mp h3)

/-- Witness for C10 on a concrete triangle. -/
theorem hull_vertices_from_input_witness :
    (Pt.mk 0 0 ∈ computeConvexHull [⟨0, 0⟩, ⟨1, 0⟩, ⟨0, 1⟩]) ∧
      Pt.mk 0 0 ∈ ([⟨0, 0⟩, ⟨1, 0⟩, ⟨0, 1⟩] : List Pt) :=
  ⟨by norm_num [computeConvexHull, sortPts, buildChain, chainStep, popBad, cross2D,
      List.insertionSort, List.orderedInsert, lexLe],
   hull_vertices_from_input [⟨0, 0⟩, ⟨1, 0⟩, ⟨0, 1⟩] (Pt.mk 0 0)
     (by norm_num [computeConvexHull, sortPts, buildChain, chainStep, popBad, cross2D,
       List.insertionSort, List.orderedInsert, lexLe])⟩

/-! ### C9: column overlap resolution -/

/-- A pass reporting no change leaves the position list untouched. -/
theorem relaxPass_false_eq (minGap : ℚ) :
    ∀ (t : List ℚ) (prev : ℚ), (relaxPass minGap prev t).2 = false →
      (relaxPass minGap prev t).1 = prev :: t := by
  intro t
  induction t with
  | nil => intro prev _; rfl
  | cons x t' ih =>
      intro prev hfalse
      unfold relaxPass at hfalse ⊢
      by_cases hgap : x - prev < minGap
      · rw [if_pos hgap] at hfalse
        exact absurd hfalse (by simp)
      · rw [if_neg hgap] at hfalse ⊢
        simpa using ih x hfalse

/-- A pass reporting no change certifies that all adjacent gaps meet the
minimum. -/
theorem relaxPass_false_chain (minGap : ℚ) :
    ∀ (t : List ℚ) (prev : ℚ), (relaxPass minGap prev t).2 = false →
      List.Chain' (fun a b => minGap ≤ b - a) (prev :: t) := by
  intro t
  induction t with
  | nil => intro prev _; simp
  | cons x t' ih =>
      intro prev hfalse
      unfold relaxPass at hfalse
      by_cases hgap : x - prev < minGap
      · rw [if_pos hgap] at hfalse
        exact absurd hfalse (by simp)
      · rw [if_neg hgap] at hfalse
        have hch := ih x (by simpa using hfalse)
        exact List.Chain'.cons (le_of_not_lt hgap) hch

/-- Lifting of the two pass lemmas to possibly empty lists. -/
theorem runPass_false (minGap : ℚ) (l : List ℚ) (h : (runPass minGap l).2 = false) :
    (runPass minGap l).1 = l ∧ List.Chain' (fun a b => minGap ≤ b - a) l := by
  cases l with
  | nil => exact ⟨rfl, List.chain'_nil⟩
  | cons x t =>
      exact ⟨relaxPass_false_eq minGap t x h, relaxPass_false_chain minGap t x h⟩

/-- Clamped positions keep the whole column inside bounds whenever the
bounds are at least one column wide. -/
theorem clampCol_bounds (plotLeft plotRight x : ℚ)
    (hw : COLUMN_WIDTH_PX ≤ plotRight - plotLeft) :
    plotLeft ≤ clampCol plotLeft plotRight x - COLUMN_WIDTH_PX / 2 ∧
      clampCol plotLeft plotRight x + COLUMN_WIDTH_PX / 2 ≤ plotRight := by
  simp only [clampCol, COLUMN_WIDTH_PX] at *
  split_ifs with h1 h2 h3 <;> constructor <;> linarith

/-- Clamping is the identity on positions already inside the bounds. -/
theorem clampCol_id (plotLeft plotRight x : ℚ)
    (h1 : plotLeft + COLUMN_WIDTH_PX / 2 ≤ x)
    (h2 : x + COLUMN_WIDTH_PX / 2 ≤ plotRight) :
    clampCol plotLeft plotRight x = x := by
  simp only [clampCol, COLUMN_WIDTH_PX] at *
  split_ifs with h3 h4 <;> linarith

/-- Counterexample to C9 as stated: three coincident columns with minimum
gap 4 in generous bounds still violate the minimum spacing after the
5-pass relaxation loop (the passes converge only geometrically). -/
theorem resolveOverlaps_spacing_cex :
    ¬ List.Chain' (fun a b => (4 : ℚ) ≤ b - a)
      (resolveOverlaps [0, 0, 0] 4 (-100) 100) := by
  norm_num [resolveOverlaps, relaxLoop, runPass, relaxPass, clampCol,
    COLUMN_WIDTH_PX, List.insertionSort, List.orderedInsert]

/-- C9 amended: clamping always succeeds (for at least two columns and
bounds at least one column wide), and the minimum-spacing guarantee holds
exactly when the bounded relaxation loop actually reached a fixpoint and
clamping displaces no column. -/
theorem resolveOverlaps_amended (positions : List ℚ)
    (minGap plotLeft plotRight : ℚ) (h2 : 2 ≤ positions.length)
    (hw : COLUMN_WIDTH_PX ≤ plotRight - plotLeft) :
    (∀ x ∈ resolveOverlaps positions minGap plotLeft plotRight,
        plotLeft ≤ x - COLUMN_WIDTH_PX / 2 ∧ x + COLUMN_WIDTH_PX / 2 ≤ plotRight) ∧
      ((runPass minGap (relaxLoop minGap 5
          (List.insertionSort (fun a b => a ≤ b) positions))).2 = false →
        (∀ x ∈ relaxLoop minGap 5 (List.insertionSort (fun a b => a ≤ b) positions),
          plotLeft + COLUMN_WIDTH_PX / 2 ≤ x ∧ x + COLUMN_WIDTH_PX / 2 ≤ plotRight) →
        List.Chain' (fun a b => minGap ≤ b - a)
          (resolveOverlaps positions minGap plotLeft plotRight)) := by
  have hres : resolveOverlaps positions minGap plotLeft plotRight =
      (relaxLoop minGap 5 (List.insertionSort (fun a b => a ≤ b) positions)).map
        (clampCol plotLeft plotRight) := by
    unfold resolveOverlaps
    rw [if_neg (by omega)]
  constructor
  · intro x hx
    rw [hres] at hx
    rcases List.mem_map.mp hx with ⟨y, _, rfl⟩
    exact clampCol_bounds plotLeft plotRight y hw
  · intro hfix hin
    have hchain := (runPass_false minGap _ hfix).2
    have hmap : (relaxLoop minGap 5
        (List.insertionSort (fun a b => a ≤ b) positions)).map
          (clampCol plotLeft plotRight) =
        relaxLoop minGap 5 (List.insertionSort (fun a b => a ≤ b) positions) := by
      have heq := List.map_congr_left (fun y hy =>
        clampCol_id plotLeft plotRight y (hin y hy).1 (hin y hy).2)
      rw [heq]
      simp
    rw [hres, hmap]
    exact hchain

/-- Witness for the amended C9 at two well separated columns. -/
theorem resolveOverlaps_amended_witness :
    ((2 ≤ ([0, 10] : List ℚ).length) ∧ COLUMN_WIDTH_PX ≤ (100 : ℚ) - (-100)) ∧
      ((∀ x ∈ resolveOverlaps [0, 10] 4 (-100) 100,
          (-100 : ℚ) ≤ x - COLUMN_WIDTH_PX / 2 ∧ x + COLUMN_WIDTH_PX / 2 ≤ 100) ∧
        ((runPass 4 (relaxLoop 4 5
            (List.insertionSort (fun a b => a ≤ b) [0, 10]))).2 = false →
          (∀ x ∈ relaxLoop 4 5 (List.insertionSort (fun a b => a ≤ b) [0, 10]),
            (-100 : ℚ) + COLUMN_WIDTH_PX / 2 ≤ x ∧ x + COLUMN_WIDTH_PX / 2 ≤ 100) →
          List.Chain' (fun a b => (4 : ℚ) ≤ b - a)
            (resolveOverlaps [0, 10] 4 (-100) 100))) :=
  ⟨⟨by norm_num, by norm_num [COLUMN_WIDTH_PX]⟩,
   resolveOverlaps_amended [0, 10] 4 (-100) 100 (by norm_num)
     (by norm_num [COLUMN_WIDTH_PX])⟩

/-! ### Grid scan machinery shared by C2 and C6 -/

/-- Closed form of the scanning loop: with a positive step and sufficient
fuel, the loop values are lo + i * s for i below the iteration count. -/
theorem gridStartsAux_closed (s hi : ℚ) (hs : 0 < s) :
    ∀ (fuel : ℕ) (lo : ℚ), gridCount lo hi s ≤ fuel →
      gridStartsAux s hi fuel lo =
        (List.range (gridCount lo hi s)).map (fun i : ℕ => lo + (i : ℚ) * s) := by
  intro fuel
  induction fuel with
  | zero =>
      intro lo hfuel
      have h0 : gridCount lo hi s = 0 := Nat.le_zero.mp hfuel
      rw [h0]
      rfl
  | succ f ih =>
      intro lo hfuel
      by_cases hlt : lo < hi
      · have hpos : (0 : ℚ) < (hi - lo) / s := div_pos (by linarith) hs
        have hceil : 1 ≤ ⌈(hi - lo) / s⌉ := Int.ceil_pos.mpr hpos
        have hshift : (hi - (lo + s)) / s = (hi - lo) / s - 1 := by
          field_simp
          ring
        have hcount : gridCount (lo + s) hi s = gridCount lo hi s - 1 := by
          unfold gridCount
          rw [hshift, Int.ceil_sub_one]
          omega
        have hcount1 : 1 ≤ gridCount lo hi s := by
          unfold gridCount
          omega
        have hle : gridCount (lo + s) hi s ≤ f := by omega
        have haux : gridStartsAux s hi (f + 1) lo = lo :: gridStartsAux s hi f (lo + s) := by
          have hdef : gridStartsAux s hi (f + 1) lo =
              if lo < hi then lo :: gridStartsAux s hi f (lo + s) else [] := rfl
          rw [hdef, if_pos hlt]
        rw [haux, ih (lo + s) hle, hcount]
        obtain ⟨m, hm⟩ : ∃ m, gridCount lo hi s = m + 1 :=
          ⟨gridCount lo hi s - 1, by omega⟩
        rw [hm]
        have hm' : m + 1 - 1 = m := rfl
        rw [hm', List.range_succ_eq_map, List.map_cons, List.map_map]
        congr 1
        · norm_num
        · apply List.map_congr_left
          intro i _
          simp only [Function.comp_apply]
          push_cast
          ring
      · have hcount0 : gridCount lo hi s = 0 := by
          unfold gridCount
          have h1 : (hi - lo) / s ≤ 0 :=
            div_nonpos_of_nonpos_of_nonneg (by linarith) (le_of_lt hs)
          have h2 : ⌈(hi - lo) / s⌉ ≤ 0 := by
            rw [show (0 : ℤ) = ((0 : ℕ) : ℤ) from rfl]
            exact Int.ceil_le.mpr (by exact_mod_cast h1)
          omega
        rw [hcount0]
        have hdef : gridStartsAux s hi (f + 1) lo =
            if lo < hi then lo :: gridStartsAux s hi f (lo + s) else [] := rfl
        rw [hdef, if_neg hlt]
        rfl

/-- Closed form of gridStarts for a positive step. -/
theorem gridStarts_eq (lo hi s : ℚ) (hs : 0 < s) :
    gridStarts lo hi s =
      (List.range (gridCount lo hi s)).map (fun i : ℕ => lo + (i : ℚ) * s) :=
  gridStartsAux_closed s hi hs _ lo le_rfl

/-- The iteration count as a rational upper bound: hi is reached by the
last step. -/
theorem hi_le_count_mul (lo hi s : ℚ) (hs : 0 < s) :
    hi ≤ lo + (gridCount lo hi s : ℚ) * s := by
  unfold gridCount
  by_cases h : 0 < (hi - lo) / s
  · have h1 : (hi - lo) / s ≤ (⌈(hi - lo) / s⌉ : ℚ) := Int.le_ceil _
    have h2 : ((⌈(hi - lo) / s⌉.toNat : ℤ) : ℚ) = ((⌈(hi - lo) / s⌉ : ℤ) : ℚ) := by
      rw [Int.toNat_of_nonneg (le_of_lt (Int.ceil_pos.mpr h))]
    have h3 : (hi - lo) / s ≤ ((⌈(hi - lo) / s⌉.toNat : ℤ) : ℚ) := by rw [h2]; exact h1
    rw [div_le_iff₀ hs] at h3
    push_cast at h3 ⊢
    linarith
  · have h1 : hi - lo ≤ 0 := by
      by_contra hc
      exact h (div_pos (by linarith) hs)
    have h2 : (0 : ℚ) ≤ (⌈(hi - lo) / s⌉.toNat : ℚ) := by positivity
    nlinarith

/-- Covering property of the scan: every coordinate of [lo, hi] falls into
the closed span of some loop value. -/
theorem gridStarts_cover (lo hi s x : ℚ) (hs : 0 < s) (hlt : lo < hi)
    (h1 : lo ≤ x) (h2 : x ≤ hi) :
    ∃ v ∈ gridStarts lo hi s, v ≤ x ∧ x ≤ v + s := by
  have hN1 : 1 ≤ gridCount lo hi s := by
    unfold gridCount
    have hc : 1 ≤ ⌈(hi - lo) / s⌉ := Int.ceil_pos.mpr (div_pos (by linarith) hs)
    omega
  have hfl0 : 0 ≤ ⌊(x - lo) / s⌋ :=
    Int.floor_nonneg.mpr (div_nonneg (by linarith) (le_of_lt hs))
  have hnq : ((⌊(x - lo) / s⌋.toNat : ℚ)) = ((⌊(x - lo) / s⌋ : ℤ) : ℚ) := by
    exact_mod_cast Int.toNat_of_nonneg hfl0
  rw [gridStarts_eq lo hi s hs]
  by_cases hcase : (⌊(x - lo) / s⌋).toNat < gridCount lo hi s
  · refine ⟨lo + ((⌊(x - lo) / s⌋).toNat : ℚ) * s, List.mem_map.mpr
      ⟨(⌊(x - lo) / s⌋).toNat, List.mem_range.mpr hcase, rfl⟩, ?_, ?_⟩
    · have hle : ((⌊(x - lo) / s⌋).toNat : ℚ) ≤ (x - lo) / s := by
        rw [hnq]
        exact Int.floor_le _
      rw [le_div_iff₀ hs] at hle
      linarith
    · have hup : (x - lo) / s < ((⌊(x - lo) / s⌋).toNat : ℚ) + 1 := by
        rw [hnq]
        exact Int.lt_floor_add_one _
      rw [div_lt_iff₀ hs] at hup
      linarith
  · refine ⟨lo + ((gridCount lo hi s - 1 : ℕ) : ℚ) * s, List.mem_map.mpr
      ⟨gridCount lo hi s - 1, List.mem_range.mpr (by omega), rfl⟩, ?_, ?_⟩
    · have hge : ((gridCount lo hi s - 1 : ℕ) : ℚ) ≤ (x - lo) / s := by
        have hgeZ : ((gridCount lo hi s - 1 : ℕ) : ℤ) ≤ ⌊(x - lo) / s⌋ := by omega
        calc ((gridCount lo hi s - 1 : ℕ) : ℚ)
            = (((gridCount lo hi s - 1 : ℕ) : ℤ) : ℚ) := by push_cast; ring
          _ ≤ ((⌊(x - lo) / s⌋ : ℤ) : ℚ) := by exact_mod_cast hgeZ
          _ ≤ (x - lo) / s := Int.floor_le _
      rw [le_div_iff₀ hs] at hge
      linarith
    · have hhi := hi_le_count_mul lo hi s hs
      have hcast : ((gridCount lo hi s - 1 : ℕ) : ℚ) + 1 = (gridCount lo hi s : ℚ) := by
        have hn : (gridCount lo hi s - 1 : ℕ) + 1 = gridCount lo hi s := by omega
        exact_mod_cast hn
      nlinarith [le_trans h2 hhi, hcast, hs]

/-- Successive scan values are at least one step apart (in particular the
open cell spans are pairwise disjoint). -/
theorem gridStarts_pairwise (lo hi s : ℚ) (hs : 0 < s) :
    List.Pairwise (fun a b => a + s ≤ b) (gridStarts lo hi s) := by
  rw [gridStarts_eq lo hi s hs, List.pairwise_map]
  refine List.Pairwise.imp ?_ (List.pairwise_lt_range _)
  intro i j hij
  have h1 : (i : ℚ) + 1 ≤ (j : ℚ) := by exact_mod_cast hij
  nlinarith

/-! ### C2: gap grid tiling -/

/-- Two grid cells overlap in area when some point is interior to both. -/
def cellOverlap (c d : GapCell) : Prop :=
  ∃ la lo' : ℚ,
    (c.latMin < la ∧ la < c.latMax ∧ c.lonMin < lo' ∧ lo' < c.lonMax) ∧
    (d.latMin < la ∧ la < d.latMax ∧ d.lonMin < lo' ∧ lo' < d.lonMax)

/-- The smaller of the two lists is nonempty exactly when the padded bounds
are separated. -/
theorem minList_le_maxList (l : List ℚ) (h : l ≠ []) : minList l ≤ maxList l := by
  cases l with
  | nil => exact absurd rfl h
  | cons x t =>
      exact le_trans (foldl_min_le_seed t x) (le_foldl_max_seed t x)

/-- createGapGrid written with its let bindings expanded. -/
theorem createGapGrid_eq (dist : ℚ → ℚ → ℚ → ℚ → ℚ) (conv : Conv) (gridSizeFt : ℚ)
    (baseSamples plannedPoints : List Pt) (includePlanned : Bool) :
    createGapGrid dist conv gridSizeFt baseSamples plannedPoints includePlanned =
      ((gridStarts (padMin (baseSamples.map Pt.lat)) (padMax (baseSamples.map Pt.lat))
          (gridSizeFt * conv.feetToMeters / conv.metersPerDegLat)).map (fun lat =>
        (gridStarts (padMin (baseSamples.map Pt.lon)) (padMax (baseSamples.map Pt.lon))
            (gridSizeFt * conv.feetToMeters / conv.metersPerDegLon)).map (fun lon =>
          GapCell.mk lat lon
            (lat + gridSizeFt * conv.feetToMeters / conv.metersPerDegLat)
            (lon + gridSizeFt * conv.feetToMeters / conv.metersPerDegLon)
            (((baseSamples ++ (if includePlanned then plannedPoints else [])).filter
              (fun samp => dist
                (lat + gridSizeFt * conv.feetToMeters / conv.metersPerDegLat / 2)
                (lon + gridSizeFt * conv.feetToMeters / conv.metersPerDegLon / 2)
                samp.lat samp.lon ≤ gridSizeFt * conv.feetToMeters)).length)
            (classifyGap
              (((baseSamples ++ (if includePlanned then plannedPoints else [])).filter
                (fun samp => dist
                  (lat + gridSizeFt * conv.feetToMeters / conv.metersPerDegLat / 2)
                  (lon + gridSizeFt * conv.feetToMeters / conv.metersPerDegLon / 2)
                  samp.lat samp.lon ≤ gridSizeFt * conv.feetToMeters)).length))))).flatten :=
  rfl

/-- C2 amended: the gap-grid cells cover the padded bounding box of the
base samples and are pairwise non-overlapping in area; the union can extend
beyond the box (the scan's last row and column overshoot), so equality of
union and box does not hold in general. -/
theorem createGapGrid_tiling_amended (dist : ℚ → ℚ → ℚ → ℚ → ℚ) (conv : Conv)
    (gridSizeFt : ℚ) (baseSamples plannedPoints : List Pt) (includePlanned : Bool)
    (hbase : baseSamples ≠ []) (hft : 0 < gridSizeFt) (hfm : 0 < conv.feetToMeters)
    (hla : 0 < conv.metersPerDegLat) (hlo : 0 < conv.metersPerDegLon) :
    (∀ la lo' : ℚ,
        padMin (baseSamples.map Pt.lat) ≤ la → la ≤ padMax (baseSamples.map Pt.lat) →
        padMin (baseSamples.map Pt.lon) ≤ lo' → lo' ≤ padMax (baseSamples.map Pt.lon) →
        ∃ c ∈ createGapGrid dist conv gridSizeFt baseSamples plannedPoints includePlanned,
          c.latMin ≤ la ∧ la ≤ c.latMax ∧ c.lonMin ≤ lo' ∧ lo' ≤ c.lonMax) ∧
      List.Pairwise (fun c d => ¬ cellOverlap c d)
        (createGapGrid dist conv gridSizeFt baseSamples plannedPoints includePlanned) := by
  have hsLat : 0 < gridSizeFt * conv.feetToMeters / conv.metersPerDegLat :=
    div_pos (mul_pos hft hfm) hla
  have hsLon : 0 < gridSizeFt * conv.feetToMeters / conv.metersPerDegLon :=
    div_pos (mul_pos hft hfm) hlo
  have hmapLat : baseSamples.map Pt.lat ≠ [] := by
    simpa using hbase
  have hmapLon : baseSamples.map Pt.lon ≠ [] := by
    simpa using hbase
  have hltLat : padMin (baseSamples.map Pt.lat) < padMax (baseSamples.map Pt.lat) := by
    have := minList_le_maxList _ hmapLat
    unfold padMin padMax
    norm_num
    linarith
  have hltLon : padMin (baseSamples.map Pt.lon) < padMax (baseSamples.map Pt.lon) := by
    have := minList_le_maxList _ hmapLon
    unfold padMin padMax
    norm_num
    linarith
  constructor
  · intro la lo' hla1 hla2 hlo1 hlo2
    obtain ⟨vlat, hvlat, hvlat1, hvlat2⟩ :=
      gridStarts_cover _ _ _ la hsLat hltLat hla1 hla2
    obtain ⟨vlon, hvlon, hvlon1, hvlon2⟩ :=
      gridStarts_cover _ _ _ lo' hsLon hltLon hlo1 hlo2
    rw [createGapGrid_eq]
    exact ⟨_, List.mem_flatten.mpr ⟨_, List.mem_map.mpr ⟨vlat, hvlat, rfl⟩,
      List.mem_map.mpr ⟨vlon, hvlon, rfl⟩⟩, hvlat1, hvlat2, hvlon1, hvlon2⟩
  · rw [createGapGrid_eq]
    refine List.pairwise_flatten.mpr ⟨?_, ?_⟩
    · intro row hrow
      rcases List.mem_map.mp hrow with ⟨lat1, _, rfl⟩
      rw [List.pairwise_map]
      refine List.Pairwise.imp ?_ (gridStarts_pairwise _ _ _ hsLon)
      intro a b hab hover
      rcases hover with ⟨la, lo', hc, hd⟩
      have h1 : lo' < a + gridSizeFt * conv.feetToMeters / conv.metersPerDegLon :=
        hc.2.2.2
      have h2 : b < lo' := hd.2.2.1
      linarith
    · rw [List.pairwise_map]
      refine List.Pairwise.imp ?_ (gridStarts_pairwise _ _ _ hsLat)
      intro lat1 lat2 hab x hx y hy hover
      rcases List.mem_map.mp hx with ⟨lon1, _, rfl⟩
      rcases List.mem_map.mp hy with ⟨lon2, _, rfl⟩
      rcases hover with ⟨la, lo', hc, hd⟩
      have h1 : la < lat1 + gridSizeFt * conv.feetToMeters / conv.metersPerDegLat :=
        hc.2.1
      have h2 : lat2 < la := hd.1
      linarith

/-- Concrete stand-in for the external Leaflet distance: L1 distance scaled
to meters per axis. -/
def distL1M (conv : Conv) (lat1 lon1 lat2 lon2 : ℚ) : ℚ :=
  |lat1 - lat2| * conv.metersPerDegLat + |lon1 - lon2| * conv.metersPerDegLon

/-- Counterexample to C2 as stated: with a single sample and a 200 ft grid
at these scale constants, the produced cell reaches latitude and longitude
199/2000 while the padded bounding box ends at 1/2000, so the union of the
cells is strictly larger than the padded bounding box; the point
(1/20, 1/20) is covered by a cell but lies outside the box. -/
theorem createGapGrid_tiling_cex :
    (∃ c ∈ createGapGrid (distL1M ⟨1000, 1000, 1/2⟩) ⟨1000, 1000, 1/2⟩ 200
        [⟨0, 0⟩] [] false,
      c.latMin ≤ 1/20 ∧ 1/20 ≤ c.latMax ∧ c.lonMin ≤ 1/20 ∧ 1/20 ≤ c.lonMax) ∧
      padMax ([(⟨0, 0⟩ : Pt)].map Pt.lat) < 1/20 := by
  have hceil : (⌈(1 : ℚ)/100⌉ : ℤ) = 1 := by
    rw [Int.ceil_eq_iff] <;> norm_num
  have hdec : decide (|(99 : ℚ)/2000| * 1000 + |(99 : ℚ)/2000| * 1000 ≤ 100) = true :=
    decide_eq_true (by rw [abs_of_nonneg (by norm_num)]; norm_num)
  constructor
  · refine ⟨GapCell.mk (-(1/2000)) (-(1/2000)) (-(1/2000) + 1/10) (-(1/2000) + 1/10)
      1 GapClass.yellow, ?_, by norm_num, by norm_num, by norm_num, by norm_num⟩
    norm_num [createGapGrid, padMin, padMax, minList, maxList, gridStarts, gridCount,
      gridStartsAux, hceil, hdec, distL1M, classifyGap, List.filter]
  · norm_num [padMax, maxList]

/-- Witness for the amended C2 at the same concrete configuration. -/
theorem createGapGrid_tiling_amended_witness :
    (([(⟨0, 0⟩ : Pt)] : List Pt) ≠ [] ∧ (0 : ℚ) < 200 ∧
        (0 : ℚ) < (Conv.mk 1000 1000 (1/2)).feetToMeters ∧
        (0 : ℚ) < (Conv.mk 1000 1000 (1/2)).metersPerDegLat ∧
        (0 : ℚ) < (Conv.mk 1000 1000 (1/2)).metersPerDegLon) ∧
      ((∀ la lo' : ℚ,
          padMin (([(⟨0, 0⟩ : Pt)]).map Pt.lat) ≤ la →
          la ≤ padMax (([(⟨0, 0⟩ : Pt)]).map Pt.lat) →
          padMin (([(⟨0, 0⟩ : Pt)]).map Pt.lon) ≤ lo' →
          lo' ≤ padMax (([(⟨0, 0⟩ : Pt)]).map Pt.lon) →
          ∃ c ∈ createGapGrid (distL1M ⟨1000, 1000, 1/2⟩) ⟨1000, 1000, 1/2⟩ 200
              [⟨0, 0⟩] [] false,
            c.latMin ≤ la ∧ la ≤ c.latMax ∧ c.lonMin ≤ lo' ∧ lo' ≤ c.lonMax) ∧
        List.Pairwise (fun c d => ¬ cellOverlap c d)
          (createGapGrid (distL1M ⟨1000, 1000, 1/2⟩) ⟨1000, 1000, 1/2⟩ 200
            [⟨0, 0⟩] [] false)) :=
  ⟨⟨by simp, by norm_num, by norm_num, by norm_num, by norm_num⟩,
   createGapGrid_tiling_amended (distL1M ⟨1000, 1000, 1/2⟩) ⟨1000, 1000, 1/2⟩ 200
     [⟨0, 0⟩] [] false (by simp) (by norm_num) (by norm_num) (by norm_num)
     (by norm_num)⟩

/-! ### C6: hot-zone grid -/

/-- createHotZoneGrid written with its guard discharged and let bindings
expanded. -/
theorem createHotZoneGrid_eq (dist : ℚ → ℚ → ℚ → ℚ → ℚ) (conv : Conv)
    (gridSizeFt : ℚ) (thresh : Threshold) (samples2025 eaSamples : List HZSample)
    (hne : collectHZ samples2025 eaSamples ≠ []) :
    createHotZoneGrid dist conv gridSizeFt thresh samples2025 eaSamples =
      ((gridStarts (padMin ((collectHZ samples2025 eaSamples).map IdwPt.lat))
          (padMax ((collectHZ samples2025 eaSamples).map IdwPt.lat))
          (gridSizeFt * conv.feetToMeters / conv.metersPerDegLat)).map (fun lat =>
        (gridStarts (padMin ((collectHZ samples2025 eaSamples).map IdwPt.lon))
            (padMax ((collectHZ samples2025 eaSamples).map IdwPt.lon))
            (gridSizeFt * conv.feetToMeters / conv.metersPerDegLon)).filterMap (fun lon =>
          hotZoneCell dist thresh (collectHZ samples2025 eaSamples)
            (gridSizeFt * conv.feetToMeters)
            (gridSizeFt * conv.feetToMeters / conv.metersPerDegLat)
            (gridSizeFt * conv.feetToMeters / conv.metersPerDegLon) lat lon))).flatten := by
  unfold createHotZoneGrid
  rw [if_neg]
  simp [List.isEmpty_iff, hne]

/-- A cell is skipped exactly when no collected sample is within the search
radius of its centroid. -/
theorem hotZoneCell_none (dist : ℚ → ℚ → ℚ → ℚ → ℚ) (thresh : Threshold)
    (allSamples : List IdwPt) (searchRadius gridSizeLat gridSizeLon lat lon : ℚ)
    (h : allSamples.filter (fun s =>
        dist (lat + gridSizeLat / 2) (lon + gridSizeLon / 2) s.lat s.lon ≤ searchRadius)
        = []) :
    hotZoneCell dist thresh allSamples searchRadius gridSizeLat gridSizeLon lat lon
      = none := by
  unfold hotZoneCell
  rw [if_pos]
  rw [List.isEmpty_iff]
  exact h

/-- When some collected sample is within the radius, the emitted cell
carries the zero-seeded maximum of the in-range values and its
classification. -/
theorem hotZoneCell_some (dist : ℚ → ℚ → ℚ → ℚ → ℚ) (thresh : Threshold)
    (allSamples : List IdwPt) (searchRadius gridSizeLat gridSizeLon lat lon : ℚ)
    (h : allSamples.filter (fun s =>
        dist (lat + gridSizeLat / 2) (lon + gridSizeLon / 2) s.lat s.lon ≤ searchRadius)
        ≠ []) :
    hotZoneCell dist thresh allSamples searchRadius gridSizeLat gridSizeLon lat lon
      = some (HZCell.mk lat lon (lat + gridSizeLat) (lon + gridSizeLon)
          (((allSamples.filter (fun s =>
              dist (lat + gridSizeLat / 2) (lon + gridSizeLon / 2) s.lat s.lon
                ≤ searchRadius)).map IdwPt.value).foldl max 0)
          (classifyHZ thresh (((allSamples.filter (fun s =>
              dist (lat + gridSizeLat / 2) (lon + gridSizeLon / 2) s.lat s.lon
                ≤ searchRadius)).map IdwPt.value).foldl max 0))) := by
  unfold hotZoneCell
  rw [if_neg]
  simp [List.isEmpty_iff, h]

/-- Inversion: a produced hot-zone cell records its own grid start and the
zero-seeded maximum of the in-range values. -/
theorem hotZoneCell_some_inv (dist : ℚ → ℚ → ℚ → ℚ → ℚ) (thresh : Threshold)
    (allSamples : List IdwPt) (searchRadius gridSizeLat gridSizeLon lat lon : ℚ)
    (c : HZCell)
    (h : hotZoneCell dist thresh allSamples searchRadius gridSizeLat gridSizeLon lat lon
      = some c) :
    allSamples.filter (fun s =>
        dist (lat + gridSizeLat / 2) (lon + gridSizeLon / 2) s.lat s.lon ≤ searchRadius)
        ≠ [] ∧
      c = HZCell.mk lat lon (lat + gridSizeLat) (lon + gridSizeLon)
        (((allSamples.filter (fun s =>
            dist (lat + gridSizeLat / 2) (lon + gridSizeLon / 2) s.lat s.lon
              ≤ searchRadius)).map IdwPt.value).foldl max 0)
        (classifyHZ thresh (((allSamples.filter (fun s =>
            dist (lat + gridSizeLat / 2) (lon + gridSizeLon / 2) s.lat s.lon
              ≤ searchRadius)).map IdwPt.value).foldl max 0)) := by
  by_cases hf : allSamples.filter (fun s =>
      dist (lat + gridSizeLat / 2) (lon + gridSizeLon / 2) s.lat s.lon ≤ searchRadius)
      = []
  · rw [hotZoneCell_none dist thresh allSamples searchRadius gridSizeLat gridSizeLon
      lat lon hf] at h
    cases h
  · rw [hotZoneCell_some dist thresh allSamples searchRadius gridSizeLat gridSizeLon
      lat lon hf] at h
    exact ⟨hf, (Option.some_inj.mp h).symm⟩

/-- C6 amended: a grid cell is omitted exactly when no collected sample
(with a defined value for the analyte) lies within the search radius of the
cell centroid; an emitted cell's aggregate is the maximum of 0 and the
in-range sample values (the source seeds its maximum with 0), classified
red above the high threshold, orange above the low threshold and green
otherwise. -/
theorem createHotZoneGrid_cells_amended (dist : ℚ → ℚ → ℚ → ℚ → ℚ) (conv : Conv)
    (gridSizeFt : ℚ) (thresh : Threshold) (samples2025 eaSamples : List HZSample)
    (hne : collectHZ samples2025 eaSamples ≠ []) :
    ∀ vlat ∈ gridStarts (padMin ((collectHZ samples2025 eaSamples).map IdwPt.lat))
        (padMax ((collectHZ samples2025 eaSamples).map IdwPt.lat))
        (gridSizeFt * conv.feetToMeters / conv.metersPerDegLat),
    ∀ vlon ∈ gridStarts (padMin ((collectHZ samples2025 eaSamples).map IdwPt.lon))
        (padMax ((collectHZ samples2025 eaSamples).map IdwPt.lon))
        (gridSizeFt * conv.feetToMeters / conv.metersPerDegLon),
      ((collectHZ samples2025 eaSamples).filter (fun s =>
          dist (vlat + gridSizeFt * conv.feetToMeters / conv.metersPerDegLat / 2)
            (vlon + gridSizeFt * conv.feetToMeters / conv.metersPerDegLon / 2)
            s.lat s.lon ≤ gridSizeFt * conv.feetToMeters) = [] →
        ∀ c ∈ createHotZoneGrid dist conv gridSizeFt thresh samples2025 eaSamples,
          ¬(c.latMin = vlat ∧ c.lonMin = vlon)) ∧
      ((collectHZ samples2025 eaSamples).filter (fun s =>
          dist (vlat + gridSizeFt * conv.feetToMeters / conv.metersPerDegLat / 2)
            (vlon + gridSizeFt * conv.feetToMeters / conv.metersPerDegLon / 2)
            s.lat s.lon ≤ gridSizeFt * conv.feetToMeters) ≠ [] →
        HZCell.mk vlat vlon
          (vlat + gridSizeFt * conv.feetToMeters / conv.metersPerDegLat)
          (vlon + gridSizeFt * conv.feetToMeters / conv.metersPerDegLon)
          ((((collectHZ samples2025 eaSamples).filter (fun s =>
            dist (vlat + gridSizeFt * conv.feetToMeters / conv.metersPerDegLat / 2)
              (vlon + gridSizeFt * conv.feetToMeters / conv.metersPerDegLon / 2)
              s.lat s.lon ≤ gridSizeFt * conv.feetToMeters)).map IdwPt.value).foldl max 0)
          (if thresh.high <
              (((collectHZ samples2025 eaSamples).filter (fun s =>
                dist (vlat + gridSizeFt * conv.feetToMeters / conv.metersPerDegLat / 2)
                  (vlon + gridSizeFt * conv.feetToMeters / conv.metersPerDegLon / 2)
                  s.lat s.lon ≤ gridSizeFt * conv.feetToMeters)).map IdwPt.value).foldl
                max 0 then HZClass.red
            else if thresh.low <
              (((collectHZ samples2025 eaSamples).filter (fun s =>
                dist (vlat + gridSizeFt * conv.feetToMeters / conv.metersPerDegLat / 2)
                  (vlon + gridSizeFt * conv.feetToMeters / conv.metersPerDegLon / 2)
                  s.lat s.lon ≤ gridSizeFt * conv.feetToMeters)).map IdwPt.value).foldl
                max 0 then HZClass.orange
            else HZClass.green) ∈
          createHotZoneGrid dist conv gridSizeFt thresh samples2025 eaSamples) := by
  intro vlat hvlat vlon hvlon
  constructor
  · intro hempty c hc hcmin
    rw [createHotZoneGrid_eq dist conv gridSizeFt thresh samples2025 eaSamples hne] at hc
    rcases List.mem_flatten.mp hc with ⟨row, hrow, hcrow⟩
    rcases List.mem_map.mp hrow with ⟨vlat', _, rfl⟩
    rcases List.mem_filterMap.mp hcrow with ⟨vlon', _, hcell⟩
    obtain ⟨hfne, rfl⟩ := hotZoneCell_some_inv dist thresh _ _ _ _ _ _ _ hcell
    have h1 : vlat' = vlat := hcmin.1
    have h2 : vlon' = vlon := hcmin.2
    rw [h1, h2] at hfne
    exact hfne hempty
  · intro hfne
    rw [createHotZoneGrid_eq dist conv gridSizeFt thresh samples2025 eaSamples hne]
    refine List.mem_flatten.mpr ⟨_, List.mem_map.mpr ⟨vlat, hvlat, rfl⟩,
      List.mem_filterMap.mpr ⟨vlon, hvlon, ?_⟩⟩
    rw [hotZoneCell_some dist thresh _ _ _ _ _ _ hfne]
    rfl

/-- Counterexample to C6 as stated: a lone sample of value -5 sits exactly
in range of the single cell's centroid, so the maximum analyte value among
in-range samples is -5, yet the emitted cell's aggregate is 0 because the
source seeds its maximum with 0. -/
theorem createHotZoneGrid_aggregate_cex :
    (∃ c ∈ createHotZoneGrid (distL1M ⟨1000, 1000, 1/2⟩) ⟨1000, 1000, 1/2⟩ 200 ⟨1, 2⟩
        [HZSample.mk 0 0 true (some (-5))] [],
      c.maxVal = 0) ∧
      maxList (((collectHZ [HZSample.mk 0 0 true (some (-5))] []).filter (fun s =>
          distL1M ⟨1000, 1000, 1/2⟩ (-(1/2000) + 1/10 / 2) (-(1/2000) + 1/10 / 2)
            s.lat s.lon ≤ 100)).map IdwPt.value) = -5 ∧
      (0 : ℚ) ≠ (-5 : ℚ) := by
  have hceil : (⌈(1 : ℚ)/100⌉ : ℤ) = 1 := by
    rw [Int.ceil_eq_iff] <;> norm_num
  have hdec : decide (|(99 : ℚ)/2000| * 1000 + |(99 : ℚ)/2000| * 1000 ≤ 100) = true :=
    decide_eq_true (by rw [abs_of_nonneg (by norm_num)]; norm_num)
  refine ⟨?_, ?_, by norm_num⟩
  · refine ⟨HZCell.mk (-(1/2000)) (-(1/2000)) (-(1/2000) + 1/10) (-(1/2000) + 1/10)
      0 HZClass.green, ?_, rfl⟩
    norm_num [createHotZoneGrid, collectHZ, hotZoneCell, classifyHZ, padMin, padMax,
      minList, maxList, gridStarts, gridCount, gridStartsAux, hceil, hdec, distL1M,
      List.filter, List.filterMap]
  · norm_num [collectHZ, maxList, distL1M, List.filter, List.filterMap, hdec]

/-- Witness for the amended C6 at a concrete one-sample configuration. -/
theorem createHotZoneGrid_cells_amended_witness :
    (collectHZ [HZSample.mk 0 0 true (some 5)] ([] : List HZSample) ≠ []) ∧
    ∀ vlat ∈ gridStarts (padMin ((collectHZ [HZSample.mk 0 0 true (some 5)] ([] : List HZSample)).map IdwPt.lat))
        (padMax ((collectHZ [HZSample.mk 0 0 true (some 5)] ([] : List HZSample)).map IdwPt.lat))
        ((200 : ℚ) * (Conv.mk 1000 1000 (1/2)).feetToMeters / (Conv.mk 1000 1000 (1/2)).metersPerDegLat),
    ∀ vlon ∈ gridStarts (padMin ((collectHZ [HZSample.mk 0 0 true (some 5)] ([] : List HZSample)).map IdwPt.lon))
        (padMax ((collectHZ [HZSample.mk 0 0 true (some 5)] ([] : List HZSample)).map IdwPt.lon))
        ((200 : ℚ) * (Conv.mk 1000 1000 (1/2)).feetToMeters / (Conv.mk 1000 1000 (1/2)).metersPerDegLon),
      ((collectHZ [HZSample.mk 0 0 true (some 5)] ([] : List HZSample)).filter (fun s =>
          distL1M (Conv.mk 1000 1000 (1/2)) (vlat + (200 : ℚ) * (Conv.mk 1000 1000 (1/2)).feetToMeters / (Conv.mk 1000 1000 (1/2)).metersPerDegLat / 2)
            (vlon + (200 : ℚ) * (Conv.mk 1000 1000 (1/2)).feetToMeters / (Conv.mk 1000 1000 (1/2)).metersPerDegLon / 2)
            s.lat s.lon ≤ (200 : ℚ) * (Conv.mk 1000 1000 (1/2)).feetToMeters) = [] →
        ∀ c ∈ createHotZoneGrid (distL1M (Conv.mk 1000 1000 (1/2))) (Conv.mk 1000 1000 (1/2)) (200 : ℚ) (Threshold.mk 1 2) [HZSample.mk 0 0 true (some 5)] ([] : List HZSample),
          ¬(c.latMin = vlat ∧ c.lonMin = vlon)) ∧
      ((collectHZ [HZSample.mk 0 0 true (some 5)] ([] : List HZSample)).filter (fun s =>
          distL1M (Conv.mk 1000 1000 (1/2)) (vlat + (200 : ℚ) * (Conv.mk 1000 1000 (1/2)).feetToMeters / (Conv.mk 1000 1000 (1/2)).metersPerDegLat / 2)
            (vlon + (200 : ℚ) * (Conv.mk 1000 1000 (1/2)).feetToMeters / (Conv.mk 1000 1000 (1/2)).metersPerDegLon / 2)
            s.lat s.lon ≤ (200 : ℚ) * (Conv.mk 1000 1000 (1/2)).feetToMeters) ≠ [] →
        HZCell.mk vlat vlon
          (vlat + (200 : ℚ) * (Conv.mk 1000 1000 (1/2)).feetToMeters / (Conv.mk 1000 1000 (1/2)).metersPerDegLat)
          (vlon + (200 : ℚ) * (Conv.mk 1000 1000 (1/2)).feetToMeters / (Conv.mk 1000 1000 (1/2)).metersPerDegLon)
          ((((collectHZ [HZSample.mk 0 0 true (some 5)] ([] : List HZSample)).filter (fun s =>
            distL1M (Conv.mk 1000 1000 (1/2)) (vlat + (200 : ℚ) * (Conv.mk 1000 1000 (1/2)).feetToMeters / (Conv.mk 1000 1000 (1/2)).metersPerDegLat / 2)
              (vlon + (200 : ℚ) * (Conv.mk 1000 1000 (1/2)).feetToMeters / (Conv.mk 1000 1000 (1/2)).metersPerDegLon / 2)
              s.lat s.lon ≤ (200 : ℚ) * (Conv.mk 1000 1000 (1/2)).feetToMeters)).map IdwPt.value).foldl max 0)
          (if (Threshold.mk 1 2).high <
              (((collectHZ [HZSample.mk 0 0 true (some 5)] ([] : List HZSample)).filter (fun s =>
                distL1M (Conv.mk 1000 1000 (1/2)) (vlat + (200 : ℚ) * (Conv.mk 1000 1000 (1/2)).feetToMeters / (Conv.mk 1000 1000 (1/2)).metersPerDegLat / 2)
                  (vlon + (200 : ℚ) * (Conv.mk 1000 1000 (1/2)).feetToMeters / (Conv.mk 1000 1000 (1/2)).metersPerDegLon / 2)
                  s.lat s.lon ≤ (200 : ℚ) * (Conv.mk 1000 1000 (1/2)).feetToMeters)).map IdwPt.value).foldl
                max 0 then HZClass.red
            else if (Threshold.mk 1 2).low <
              (((collectHZ [HZSample.mk 0 0 true (some 5)] ([] : List HZSample)).filter (fun s =>
                distL1M (Conv.mk 1000 1000 (1/2)) (vlat + (200 : ℚ) * (Conv.mk 1000 1000 (1/2)).feetToMeters / (Conv.mk 1000 1000 (1/2)).metersPerDegLat / 2)
                  (vlon + (200 : ℚ) * (Conv.mk 1000 1000 (1/2)).feetToMeters / (Conv.mk 1000 1000 (1/2)).metersPerDegLon / 2)
                  s.lat s.lon ≤ (200 : ℚ) * (Conv.mk 1000 1000 (1/2)).feetToMeters)).map IdwPt.value).foldl
                max 0 then HZClass.orange
            else HZClass.green) ∈
          createHotZoneGrid (distL1M (Conv.mk 1000 1000 (1/2))) (Conv.mk 1000 1000 (1/2)) (200 : ℚ) (Threshold.mk 1 2) [HZSample.mk 0 0 true (some 5)] ([] : List HZSample)) :=
  ⟨by simp [collectHZ],
   createHotZoneGrid_cells_amended (distL1M (Conv.mk 1000 1000 (1/2)))
     (Conv.mk 1000 1000 (1/2)) (200 : ℚ) (Threshold.mk 1 2)
     [HZSample.mk 0 0 true (some 5)] ([] : List HZSample) (by simp [collectHZ])⟩

/-! ### C1: convex hull containment.

The monotone-chain correctness proof below works over the comparator order
(lexicographic in longitude then latitude) and a single algebraic core
lemma about cross products of lexicographically non-negative vectors. -/

/-- The comparator order is reflexive. -/
theorem lexLe_refl (p : Pt) : lexLe p p := Or.inr ⟨rfl, le_rfl⟩

/-- The comparator order is total. -/
theorem lexLe_total (p q : Pt) : lexLe p q ∨ lexLe q p := by
  unfold lexLe
  rcases lt_trichotomy p.lon q.lon with h | h | h
  · exact Or.inl (Or.inl h)
  · rcases le_total p.lat q.lat with h2 | h2
    · exact Or.inl (Or.inr ⟨h, h2⟩)
    · exact Or.inr (Or.inr ⟨h.symm, h2⟩)
  · exact Or.inr (Or.inl h)

/-- The comparator order is transitive. -/
theorem lexLe_trans (p q r : Pt) (h1 : lexLe p q) (h2 : lexLe q r) : lexLe p r := by
  unfold lexLe at *
  rcases h1 with h1 | ⟨h1, h1'⟩ <;> rcases h2 with h2 | ⟨h2, h2'⟩
  · exact Or.inl (lt_trans h1 h2)
  · exact Or.inl (h2 ▸ h1)
  · exact Or.inl (h1 ▸ h2)
  · exact Or.inr ⟨h1.trans h2, h1'.trans h2'⟩

/-- The comparator order is antisymmetric (ties are literal equality of
both coordinates). -/
theorem lexLe_antisymm (p q : Pt) (h1 : lexLe p q) (h2 : lexLe q p) : p = q := by
  unfold lexLe at *
  rcases h1 with h1 | ⟨h1, h1'⟩ <;> rcases h2 with h2 | ⟨h2, h2'⟩
  · exact absurd h2 (not_lt.mpr (le_of_lt h1))
  · exact absurd h1 (h2 ▸ lt_irrefl _)
  · exact absurd h2 (h1 ▸ lt_irrefl _)
  · cases p
    cases q
    simp only [Pt.mk.injEq]
    exact ⟨le_antisymm h1' h2', h1⟩

/-- Totality in refutation form. -/
theorem lexLe_of_not (p q : Pt) (h : ¬ lexLe p q) : lexLe q p := by
  rcases lexLe_total p q with h1 | h1
  · exact absurd h1 h
  · exact h1

instance : IsTotal Pt lexLe := ⟨lexLe_total⟩

instance : IsTrans Pt lexLe := ⟨lexLe_trans⟩

/-- Coordinate content of the comparator: the difference vector points
lexicographically forward. -/
theorem lexLe_sub (p q : Pt) (h : lexLe p q) :
    0 ≤ q.lon - p.lon ∧ (q.lon - p.lon = 0 → 0 ≤ q.lat - p.lat) := by
  unfold lexLe at h
  rcases h with h | ⟨h, h'⟩
  · exact ⟨by linarith, fun hz => absurd hz (by intro hz; linarith)⟩
  · exact ⟨by rw [h, sub_self], fun _ => by linarith⟩

/-- A strict comparator step gives a lexicographically positive difference
vector. -/
theorem lexLt_sub (p q : Pt) (h : lexLe p q) (hne : p ≠ q) :
    0 < q.lon - p.lon ∨ (q.lon - p.lon = 0 ∧ 0 < q.lat - p.lat) := by
  unfold lexLe at h
  rcases h with h | ⟨h, h'⟩
  · exact Or.inl (by linarith)
  · refine Or.inr ⟨by rw [h, sub_self], ?_⟩
    rcases lt_or_eq_of_le h' with h2 | h2
    · linarith
    · exfalso
      apply hne
      cases p
      cases q
      simp only [Pt.mk.injEq]
      exact ⟨h2, h⟩

/-- Core half-plane lemma: among vectors of non-negative lexicographic
direction, the cross-product ordering is transitive.  U is strictly
lexicographically positive; if U is counterclockwise of R and P is
counterclockwise of U then P is counterclockwise of R. -/
theorem hp_core (ux uy px py rx ry : ℚ)
    (hU : 0 < ux ∨ (ux = 0 ∧ 0 < uy))
    (hPx : 0 ≤ px) (hP0 : px = 0 → 0 ≤ py)
    (hRx : 0 ≤ rx) (hR0 : rx = 0 → 0 ≤ ry)
    (h1 : 0 ≤ ux * py - uy * px)
    (h2 : 0 ≤ rx * uy - ry * ux) :
    0 ≤ rx * py - ry * px := by
  have hid : (ux * py - uy * px) * rx + (px * ry - py * rx) * ux +
      (rx * uy - ry * ux) * px = 0 := by ring
  rcases hU with hux | ⟨hux, huy⟩
  · have h3 : (px * ry - py * rx) * ux ≤ 0 := by nlinarith [mul_nonneg h1 hRx, mul_nonneg h2 hPx]
    have h4 : px * ry - py * rx ≤ 0 := by
      by_contra hcon
      push_neg at hcon
      nlinarith [mul_pos hcon hux]
    linarith
  · rw [hux] at h1 h2
    have hpx0 : px ≤ 0 := by nlinarith
    have hpx : px = 0 := le_antisymm hpx0 hPx
    rw [hpx]
    have hpy : 0 ≤ py := hP0 hpx
    nlinarith [mul_nonneg hRx hpy]

/-- Rotation lemma at the stop vertex: a processed point before the chain
top stays left of the new edge from the top to the incoming point,
whenever both the point and the incoming point lie left of the incoming
top edge. -/
theorem edge_rot_A (u v p q : Pt) (huv : lexLe u v) (hne : u ≠ v)
    (hvp : lexLe v p) (hqv : lexLe q v)
    (h1 : 0 ≤ cross2D u v q) (h2 : 0 ≤ cross2D u v p) : 0 ≤ cross2D v p q := by
  have e1 : cross2D u v q =
      (v.lon - q.lon) * (v.lat - u.lat) - (v.lat - q.lat) * (v.lon - u.lon) := by
    unfold cross2D; ring
  have e2 : cross2D u v p =
      (v.lon - u.lon) * (p.lat - v.lat) - (v.lat - u.lat) * (p.lon - v.lon) := by
    unfold cross2D; ring
  have e3 : cross2D v p q =
      (v.lon - q.lon) * (p.lat - v.lat) - (v.lat - q.lat) * (p.lon - v.lon) := by
    unfold cross2D; ring
  rw [e3]
  have hUlex := lexLt_sub u v huv hne
  have hPlex := lexLe_sub v p hvp
  have hRlex := lexLe_sub q v hqv
  exact hp_core (v.lon - u.lon) (v.lat - u.lat) (p.lon - v.lon) (p.lat - v.lat)
    (v.lon - q.lon) (v.lat - q.lat) hUlex hPlex.1 hPlex.2 hRlex.1 hRlex.2
    (by rw [e2] at h2; linarith) (by rw [e1] at h1; linarith)

/-- Rotation lemma along a popped edge: a processed point whose position is
between the two edge endpoints stays left of the segment from the lower
endpoint to the incoming point when the incoming point is right of the
edge. -/
theorem edge_rot_C (u v p q : Pt) (huq : lexLe u q) (hnuq : u ≠ q)
    (hqv : lexLe q v) (hvp : lexLe v p)
    (h1 : 0 ≤ cross2D u v q) (h2 : cross2D u v p ≤ 0) : 0 ≤ cross2D u p q := by
  have hnuv : u ≠ v := by
    intro h
    exact hnuq (lexLe_antisymm u q huq (h ▸ hqv))
  have huv : lexLe u v := lexLe_trans u q v huq hqv
  have hup : lexLe u p := lexLe_trans u v p huv hvp
  have huq2 : lexLe u q := huq
  have e1 : cross2D u v q =
      (v.lon - u.lon) * (q.lat - u.lat) - (v.lat - u.lat) * (q.lon - u.lon) := by
    unfold cross2D; ring
  have e2 : cross2D u v p =
      (v.lon - u.lon) * (p.lat - u.lat) - (v.lat - u.lat) * (p.lon - u.lon) := by
    unfold cross2D; ring
  have e3 : cross2D u p q =
      (p.lon - u.lon) * (q.lat - u.lat) - (p.lat - u.lat) * (q.lon - u.lon) := by
    unfold cross2D; ring
  rw [e3]
  have hUlex := lexLt_sub u v huv hnuv
  have hPlex := lexLe_sub u q huq2
  have hRlex := lexLe_sub u p hup
  exact hp_core (v.lon - u.lon) (v.lat - u.lat) (q.lon - u.lon) (q.lat - u.lat)
    (p.lon - u.lon) (p.lat - u.lat) hUlex hPlex.1 hPlex.2 hRlex.1 hRlex.2
    (by rw [e1] at h1; linarith) (by rw [e2] at h2; linarith)

/-- Rotation lemma down the kept chain: left turns propagate the incoming
point's left-of-edge property to the next lower edge. -/
theorem edge_rot_D (a b c p : Pt) (hab : lexLe a b) (hbc : lexLe b c)
    (hcp : lexLe c p) (hne : b ≠ c)
    (habc : 0 ≤ cross2D a b c) (hbcp : 0 ≤ cross2D b c p) : 0 ≤ cross2D a b p := by
  have hbp : lexLe b p := lexLe_trans b c p hbc hcp
  have e1 : cross2D a b c =
      (b.lon - a.lon) * (c.lat - b.lat) - (b.lat - a.lat) * (c.lon - b.lon) := by
    unfold cross2D; ring
  have e2 : cross2D b c p =
      (c.lon - b.lon) * (p.lat - b.lat) - (c.lat - b.lat) * (p.lon - b.lon) := by
    unfold cross2D; ring
  have e3 : cross2D a b p =
      (b.lon - a.lon) * (p.lat - b.lat) - (b.lat - a.lat) * (p.lon - b.lon) := by
    unfold cross2D; ring
  rw [e3]
  have hUlex := lexLt_sub b c hbc hne
  have hPlex := lexLe_sub b p hbp
  have hRlex := lexLe_sub a b hab
  exact hp_core (c.lon - b.lon) (c.lat - b.lat) (p.lon - b.lon) (p.lat - b.lat)
    (b.lon - a.lon) (b.lat - a.lat) hUlex hPlex.1 hPlex.2 hRlex.1 hRlex.2
    (by rw [e2] at hbcp; linarith) (by rw [e1] at habc; linarith)

/-- Cross product decomposition through an intermediate point. -/
theorem cross_decomp (b a p q : Pt) :
    cross2D b p q = cross2D b a q + cross2D a p q - cross2D b a p := by
  unfold cross2D; ring

/-- The cross product vanishes when the last two points coincide. -/
theorem cross2D_right_eq (O A : Pt) : cross2D O A A = 0 := by
  unfold cross2D; ring

/-- The cross product vanishes when the first two points coincide. -/
theorem cross2D_left_eq (O B : Pt) : cross2D O O B = 0 := by
  unfold cross2D; ring

/-- Strict convexity of a (top-first) chain: every consecutive triple read
bottom-to-top is a strict left turn. -/
def Convex3 : List Pt → Prop
  | a :: b :: c :: t => 0 < cross2D c b a ∧ Convex3 (b :: c :: t)
  | _ => True

/-- Point q is on the left of every edge of the (top-first) chain, edges
read bottom-to-top. -/
def EdgesGe (q : Pt) : List Pt → Prop
  | a :: b :: t => 0 ≤ cross2D b a q ∧ EdgesGe q (b :: t)
  | _ => True

/-- Tails of chains keep strict convexity. -/
theorem Convex3_tail (a : Pt) (l : List Pt) (h : Convex3 (a :: l)) : Convex3 l := by
  cases l with
  | nil => trivial
  | cons b t =>
      cases t with
      | nil => trivial
      | cons c t' => exact h.2

/-- Tails of chains keep the left-of-edges property. -/
theorem EdgesGe_tail (q a : Pt) (l : List Pt) (h : EdgesGe q (a :: l)) : EdgesGe q l := by
  cases l with
  | nil => trivial
  | cons b t => exact h.2

/-- The popped chain is a suffix of the original. -/
theorem popBad_isSuffix (p : Pt) : ∀ C : List Pt, (popBad p C).IsSuffix C := by
  intro C
  induction C with
  | nil => exact List.nil_suffix
  | cons a t ih =>
      cases t with
      | nil => exact List.suffix_refl _
      | cons b t' =>
          unfold popBad
          by_cases hc : cross2D b a p ≤ 0
          · rw [if_pos hc]
            exact ih.trans (List.suffix_cons a (b :: t'))
          · rw [if_neg hc]

/-- Popping a non-empty chain leaves a non-empty chain. -/
theorem popBad_ne_nil (p : Pt) : ∀ C : List Pt, C ≠ [] → popBad p C ≠ [] := by
  intro C
  induction C with
  | nil => intro h; exact absurd rfl h
  | cons a t ih =>
      intro _
      cases t with
      | nil => simp [popBad]
      | cons b t' =>
          unfold popBad
          by_cases hc : cross2D b a p ≤ 0
          · rw [if_pos hc]
            exact ih (by simp)
          · rw [if_neg hc]
            simp

/-- The popped chain is either a singleton or stops at a strict left turn
with the incoming point. -/
theorem popBad_stop (p : Pt) : ∀ C : List Pt,
    popBad p C = [] ∨ (∃ a, popBad p C = [a]) ∨
      (∃ a b t, popBad p C = a :: b :: t ∧ ¬ cross2D b a p ≤ 0) := by
  intro C
  induction C with
  | nil => exact Or.inl rfl
  | cons a t ih =>
      cases t with
      | nil => exact Or.inr (Or.inl ⟨a, rfl⟩)
      | cons b t' =>
          unfold popBad
          by_cases hc : cross2D b a p ≤ 0
          · rw [if_pos hc]
            exact ih
          · rw [if_neg hc]
            exact Or.inr (Or.inr ⟨a, b, t', rfl, hc⟩)

/-- Predicates transfer to suffixes of a chain. -/
theorem Convex3_of_suffix (C D : List Pt) (h : D.IsSuffix C) (hc : Convex3 C) :
    Convex3 D := by
  rcases h with ⟨pre, rfl⟩
  induction pre with
  | nil => exact hc
  | cons x t ih => exact ih (Convex3_tail x (t ++ D) hc)

/-- EdgesGe transfers to suffixes of a chain. -/
theorem EdgesGe_of_suffix (q : Pt) (C D : List Pt) (h : D.IsSuffix C)
    (hc : EdgesGe q C) : EdgesGe q D := by
  rcases h with ⟨pre, rfl⟩
  induction pre with
  | nil => exact hc
  | cons x t ih => exact ih (EdgesGe_tail q x (t ++ D) hc)

/-- The last element of a non-empty suffix is the last element of the whole
list. -/
theorem getLastD_of_suffix (C D : List Pt) (h : D.IsSuffix C) (hne : D ≠ []) :
    D.getLastD default = C.getLastD default := by
  rcases h with ⟨pre, rfl⟩
  induction pre with
  | nil => rfl
  | cons x t ih =>
      rw [ih]
      cases hteq : t ++ D with
      | nil =>
          rcases List.append_eq_nil.mp hteq with ⟨_, hD⟩
          exact absurd hD hne
      | cons y l =>
          rw [List.cons_append, hteq]
          simp [List.getLastD_cons]

/-- The last element of a non-empty list is a member. -/
theorem getLastD_mem (C : List Pt) (h : C ≠ []) : C.getLastD default ∈ C := by
  induction C with
  | nil => exact absurd rfl h
  | cons a t ih =>
      cases t with
      | nil => simp [List.getLastD]
      | cons b t' =>
          rw [show (a :: b :: t').getLastD default = (b :: t').getLastD default from by
            simp [List.getLastD_cons]]
          exact List.mem_cons_of_mem _ (ih (by simp))

/-- The cross product vanishes when the base point recurs in third
position. -/
theorem cross2D_outer_eq (O A : Pt) : cross2D O A O = 0 := by
  unfold cross2D; ring

/-- New-edge lemma: after popping, every previously processed point q is
left of the edge from the surviving top to the incoming point p.  The
disjunctive hypothesis threads the partially established fact through the
pops. -/
theorem popBad_new_edge (p q : Pt) :
    ∀ C : List Pt, C ≠ [] →
      List.Pairwise (fun x y => lexLe y x) C →
      EdgesGe q C →
      (∀ c ∈ C, lexLe c p) →
      lexLe q p →
      lexLe (C.getLastD default) q →
      (lexLe q C.headI ∨ 0 ≤ cross2D C.headI p q) →
      0 ≤ cross2D ((popBad p C).headI) p q := by
  intro C
  induction C with
  | nil => intro h; exact absurd rfl h
  | cons a t ih =>
      intro _ hsorted hedges hall hqp hbot hq
      cases t with
      | nil =>
          rcases hq with hq | hq
          · have hqa : q = a := lexLe_antisymm q a hq (by simpa using hbot)
            show (0 : ℚ) ≤ cross2D a p q
            rw [hqa, cross2D_outer_eq]
          · exact hq
      | cons b t' =>
          have hedges' : 0 ≤ cross2D b a q ∧ EdgesGe q (b :: t') := hedges
          have hba : lexLe b a :=
            (List.pairwise_cons.mp hsorted).1 b (List.mem_cons_self b t')
          have hap : lexLe a p := hall a (List.mem_cons_self a (b :: t'))
          have hqhd : lexLe q a ∨ 0 ≤ cross2D a p q := by
            simpa using hq
          have hdef : popBad p (a :: b :: t') =
              if cross2D b a p ≤ 0 then popBad p (b :: t') else a :: b :: t' := rfl
          by_cases hc : cross2D b a p ≤ 0
          · rw [hdef, if_pos hc]
            refine ih (by simp) hsorted.of_cons hedges'.2
              (fun c hc' => hall c (List.mem_cons_of_mem a hc')) hqp
              (by simpa [List.getLastD_cons] using hbot) ?_
            rcases hqhd with hq1 | hq1
            · by_cases hqb : lexLe q b
              · exact Or.inl (by simpa using hqb)
              · have hbq : lexLe b q := lexLe_of_not q b hqb
                have hnbq : b ≠ q := fun h => hqb (h ▸ lexLe_refl b)
                refine Or.inr ?_
                show (0 : ℚ) ≤ cross2D (b :: t').headI p q
                simp only [List.headI]
                exact edge_rot_C b a p q hbq hnbq hq1 hap hedges'.1 hc
            · refine Or.inr ?_
              have hdec := cross_decomp b a p q
              show (0 : ℚ) ≤ cross2D (b :: t').headI p q
              simp only [List.headI]
              linarith [hedges'.1, hq1, hc, hdec]
          · rw [hdef, if_neg hc]
            show (0 : ℚ) ≤ cross2D (a :: b :: t').headI p q
            simp only [List.headI]
            rcases hqhd with hq1 | hq1
            · have hnba : b ≠ a := by
                intro h
                apply hc
                rw [h, cross2D_left_eq]
              exact edge_rot_A b a p q hba hnba hap hq1 hedges'.1
                (le_of_lt (not_le.mp hc))
            · exact hq1

/-- Downward propagation: once the incoming point is left of the chain's
top edge, convexity makes it left of every chain edge. -/
theorem EdgesGe_of_top (p : Pt) :
    ∀ D : List Pt, List.Pairwise (fun x y => lexLe y x) D → Convex3 D →
      (∀ c ∈ D, lexLe c p) →
      (∀ a b t, D = a :: b :: t → 0 ≤ cross2D b a p) →
      EdgesGe p D := by
  intro D
  induction D with
  | nil => intro _ _ _ _; trivial
  | cons a t ih =>
      intro hsorted hconv hall htop
      cases t with
      | nil => trivial
      | cons b t' =>
          refine ⟨htop a b t' rfl, ?_⟩
          refine ih hsorted.of_cons (Convex3_tail a (b :: t') hconv)
            (fun c hc' => hall c (List.mem_cons_of_mem a hc')) ?_
          intro x y s hshape
          cases hshape' : t' with
          | nil =>
              rw [hshape'] at hshape
              cases hshape
          | cons y' s' =>
              rw [hshape'] at hshape
              injection hshape with hx hrest
              injection hrest with hy hs
              subst hx
              subst hy
              have hconv' : 0 < cross2D y' b a ∧ Convex3 (b :: y' :: s') := by
                rw [hshape'] at hconv
                exact hconv
              have hyx : lexLe y' b := by
                have hs2 := hsorted.of_cons
                rw [hshape'] at hs2
                exact (List.pairwise_cons.mp hs2).1 y' (List.mem_cons_self y' s')
              have hxa : lexLe b a :=
                (List.pairwise_cons.mp hsorted).1 b
                  (by rw [hshape']; exact List.mem_cons_self b (y' :: s'))
              have hnxa : b ≠ a := by
                intro h
                rw [h] at hconv'
                rw [cross2D_right_eq] at hconv'
                exact lt_irrefl 0 hconv'.1
              exact edge_rot_D y' b a p hyx hxa (hall a (List.mem_cons_self a (b :: t')))
                hnxa (le_of_lt hconv'.1) (htop a b t' rfl)

/-- Invariant of the monotone-chain scan relating the processed prefix P to
the current chain C (kept top-first). -/
structure ChainInv (P C : List Pt) : Prop where
  ne : C ≠ []
  sorted : List.Pairwise (fun x y => lexLe y x) C
  convex : Convex3 C
  cover : ∀ q ∈ P, EdgesGe q C
  topmax : ∀ q ∈ P, lexLe q C.headI
  botmin : ∀ q ∈ P, lexLe (C.getLastD default) q
  subset : ∀ c ∈ C, c ∈ P

/-- One push preserves the invariant when the incoming point is a
comparator upper bound of the processed prefix. -/
theorem chainInv_step (P C : List Pt) (p : Pt) (inv : ChainInv P C)
    (hple : ∀ q ∈ P, lexLe q p) : ChainInv (P ++ [p]) (chainStep C p) := by
  have hsuf := popBad_isSuffix p C
  have hDne : popBad p C ≠ [] := popBad_ne_nil p C inv.ne
  have hDsub : ∀ c ∈ popBad p C, c ∈ C := fun c hc => hsuf.sublist.subset hc
  have hall : ∀ c ∈ C, lexLe c p := fun c hc => hple c (inv.subset c hc)
  have hallD : ∀ c ∈ popBad p C, lexLe c p := fun c hc => hall c (hDsub c hc)
  have hlast : (popBad p C).getLastD default = C.getLastD default :=
    getLastD_of_suffix C (popBad p C) hsuf hDne
  have hDsorted : List.Pairwise (fun x y => lexLe y x) (popBad p C) :=
    inv.sorted.sublist hsuf.sublist
  have hDconv : Convex3 (popBad p C) := Convex3_of_suffix C _ hsuf inv.convex
  have hDedges : ∀ q ∈ P, EdgesGe q (popBad p C) := fun q hq =>
    EdgesGe_of_suffix q C _ hsuf (inv.cover q hq)
  have hstop := popBad_stop p C
  have htop2 : ∀ a b t, popBad p C = a :: b :: t → 0 ≤ cross2D b a p := by
    intro a b t habt
    rcases hstop with h | ⟨x, hx⟩ | ⟨x, y, s, hxy, hcross⟩
    · rw [h] at habt
      cases habt
    · rw [hx] at habt
      cases habt
    · rw [hxy] at habt
      injection habt with h1 hrest
      injection hrest with h2 h3
      subst h1
      subst h2
      exact le_of_lt (not_le.mp hcross)
  constructor
  · exact List.cons_ne_nil p _
  · exact List.pairwise_cons.mpr ⟨hallD, hDsorted⟩
  · rcases hstop with h | ⟨x, hx⟩ | ⟨x, y, s, hxy, hcross⟩
    · exact absurd h hDne
    · show Convex3 (p :: popBad p C)
      rw [hx]
      trivial
    · show Convex3 (p :: popBad p C)
      rw [hxy]
      refine ⟨not_le.mp hcross, ?_⟩
      rw [hxy] at hDconv
      exact hDconv
  · intro q hq
    rcases List.mem_append.mp hq with hqP | hqp
    · have hnew : 0 ≤ cross2D ((popBad p C).headI) p q :=
        popBad_new_edge p q C inv.ne inv.sorted (inv.cover q hqP) hall (hple q hqP)
          (inv.botmin q hqP) (Or.inl (inv.topmax q hqP))
      have hEd := hDedges q hqP
      show EdgesGe q (p :: popBad p C)
      cases hD : popBad p C with
      | nil => exact absurd hD hDne
      | cons d t =>
          rw [hD] at hnew hEd
          simp only [List.headI] at hnew
          exact ⟨hnew, hEd⟩
    · have hqp' : q = p := List.mem_singleton.mp hqp
      subst hqp'
      have hEp : EdgesGe q (popBad q C) :=
        EdgesGe_of_top q (popBad q C) hDsorted hDconv hallD htop2
      show EdgesGe q (q :: popBad q C)
      cases hD : popBad q C with
      | nil => exact absurd hD hDne
      | cons d t =>
          rw [hD] at hEp
          exact ⟨le_of_eq (cross2D_right_eq d q).symm, hEp⟩
  · intro q hq
    rcases List.mem_append.mp hq with hqP | hqp
    · exact hple q hqP
    · have hqp' : q = p := List.mem_singleton.mp hqp
      subst hqp'
      exact lexLe_refl q
  · intro q hq
    have hbot_eq : (chainStep C p).getLastD default = C.getLastD default := by
      show (p :: popBad p C).getLastD default = _
      cases hD : popBad p C with
      | nil => exact absurd hD hDne
      | cons d t =>
          rw [show (p :: d :: t).getLastD default = (d :: t).getLastD default from by
            simp [List.getLastD_cons]]
          rw [← hD]
          exact hlast
    rcases List.mem_append.mp hq with hqP | hqp
    · rw [hbot_eq]
      exact inv.botmin q hqP
    · have hqp' : q = p := List.mem_singleton.mp hqp
      subst hqp'
      rw [hbot_eq]
      exact hple _ (inv.subset _ (getLastD_mem C inv.ne))
  · intro c hc
    rcases List.mem_cons.mp hc with rfl | hcD
    · exact List.mem_append.mpr (Or.inr (List.mem_singleton.mpr rfl))
    · exact List.mem_append.mpr (Or.inl (inv.subset c (hDsub c hcD)))

/-- The invariant propagates along the fold when the whole processing
order is sorted. -/
theorem chainInv_fold : ∀ (rest P C : List Pt), ChainInv P C →
    List.Pairwise lexLe (P ++ rest) →
    ChainInv (P ++ rest) (rest.foldl chainStep C) := by
  intro rest
  induction rest with
  | nil =>
      intro P C inv hp
      simpa using inv
  | cons r rest' ih =>
      intro P C inv hp
      have hple : ∀ q ∈ P, lexLe q r := by
        intro q hq
        exact (List.pairwise_append.mp hp).2.2 q hq r (List.mem_cons_self r rest')
      have hstep := chainInv_step P C r inv hple
      have hp' : List.Pairwise lexLe ((P ++ [r]) ++ rest') := by
        rw [List.append_assoc]
        simpa using hp
      have hfold := ih (P ++ [r]) (chainStep C r) hstep hp'
      rw [List.append_assoc] at hfold
      simpa using hfold

/-- The scan of a sorted non-empty list satisfies the chain invariant. -/
theorem buildChain_inv (xs : List Pt) (h : xs ≠ []) (hsort : List.Pairwise lexLe xs) :
    ChainInv xs (buildChain xs) := by
  cases xs with
  | nil => exact absurd rfl h
  | cons x t =>
      have base : ChainInv [x] [x] := by
        refine ⟨by simp, ?_, trivial, ?_, ?_, ?_, ?_⟩
        · simp
        · intro q _
          trivial
        · intro q hq
          rw [List.mem_singleton.mp hq]
          exact lexLe_refl x
        · intro q hq
          rw [List.mem_singleton.mp hq]
          exact lexLe_refl x
        · intro c hc
          exact hc
      have hfold := chainInv_fold t [x] [x] base (by simpa using hsort)
      simpa using hfold

/-- The bottom of the chain survives every push. -/
theorem chainStep_getLastD (C : List Pt) (p : Pt) (h : C ≠ []) :
    (chainStep C p).getLastD default = C.getLastD default := by
  have hDne := popBad_ne_nil p C h
  show (p :: popBad p C).getLastD default = _
  cases hD : popBad p C with
  | nil => exact absurd hD hDne
  | cons d t =>
      rw [show (p :: d :: t).getLastD default = (d :: t).getLastD default from by
        simp [List.getLastD_cons]]
      rw [← hD]
      exact getLastD_of_suffix C _ (popBad_isSuffix p C) hDne

/-- The chain bottom after a fold is the bottom of the seed chain. -/
theorem foldl_chainStep_getLastD : ∀ (xs C : List Pt), C ≠ [] →
    (xs.foldl chainStep C).getLastD default = C.getLastD default := by
  intro xs
  induction xs with
  | nil => intro C _; rfl
  | cons x t ih =>
      intro C hC
      have h1 : (x :: t).foldl chainStep C = t.foldl chainStep (chainStep C x) := rfl
      rw [h1, ih (chainStep C x) (List.cons_ne_nil _ _), chainStep_getLastD C x hC]

/-- The chain top after a fold over a non-empty list is the last processed
point. -/
theorem foldl_chainStep_headI : ∀ (xs C : List Pt), xs ≠ [] →
    (xs.foldl chainStep C).headI = xs.getLastD default := by
  intro xs
  induction xs with
  | nil => intro C h; exact absurd rfl h
  | cons x t ih =>
      intro C _
      cases t with
      | nil => rfl
      | cons y t' =>
          have h1 : (x :: y :: t').foldl chainStep C =
              (y :: t').foldl chainStep (chainStep C x) := rfl
          rw [h1, ih (chainStep C x) (by simp)]
          simp [List.getLastD_cons]

/-- Top of the built chain is the lexicographic end of the processing
order. -/
theorem buildChain_headI (xs : List Pt) (h : xs ≠ []) :
    (buildChain xs).headI = xs.getLastD default :=
  foldl_chainStep_headI xs [] h

/-- Bottom of the built chain is the start of the processing order. -/
theorem buildChain_getLastD (xs : List Pt) (h : xs ≠ []) :
    (buildChain xs).getLastD default = xs.headI := by
  cases xs with
  | nil => exact absurd rfl h
  | cons x t =>
      have h1 : buildChain (x :: t) = t.foldl chainStep [x] := rfl
      rw [h1, foldl_chainStep_getLastD t [x] (by simp)]
      rfl

/-- Chains never shrink below two points once two points are processed. -/
theorem foldl_chainStep_len2 : ∀ (xs C : List Pt), 2 ≤ C.length →
    2 ≤ (xs.foldl chainStep C).length := by
  intro xs
  induction xs with
  | nil => intro C h; exact h
  | cons x t ih =>
      intro C hC
      have hCne : C ≠ [] := by
        intro h
        rw [h] at hC
        simp at hC
      have h2 : 2 ≤ (chainStep C x).length := by
        show 2 ≤ (x :: popBad x C).length
        have := List.length_pos.mpr (popBad_ne_nil x C hCne)
        simp only [List.length_cons]
        omega
      exact ih (chainStep C x) h2

/-- A scan over at least two points produces a chain of at least two
points. -/
theorem buildChain_len2 (xs : List Pt) (h : 2 ≤ xs.length) :
    2 ≤ (buildChain xs).length := by
  cases xs with
  | nil => simp at h
  | cons x t =>
      cases t with
      | nil => simp at h
      | cons y t' =>
          have h1 : buildChain (x :: y :: t') = t'.foldl chainStep (chainStep [x] y) := rfl
          rw [h1]
          exact foldl_chainStep_len2 t' _ (by rfl)

/-- Point negation: the upper chain is the lower chain of the negated
reversed input. -/
def negPt (p : Pt) : Pt := ⟨-p.lat, -p.lon⟩

/-- Cross products are invariant under negating all three points. -/
theorem cross2D_negPt (O A B : Pt) :
    cross2D (negPt O) (negPt A) (negPt B) = cross2D O A B := by
  unfold cross2D negPt
  ring

/-- Negation reverses the comparator order. -/
theorem lexLe_negPt (p q : Pt) : lexLe (negPt p) (negPt q) ↔ lexLe q p := by
  unfold lexLe negPt
  constructor
  · rintro (h | ⟨h, h'⟩)
    · exact Or.inl (by simpa using h)
    · exact Or.inr ⟨by linarith [neg_inj.mp h], by simpa using h'⟩
  · rintro (h | ⟨h, h'⟩)
    · exact Or.inl (by simpa using h)
    · exact Or.inr ⟨by rw [h], by simpa using h'⟩

/-- Negation is injective on points. -/
theorem negPt_inj (p q : Pt) (h : negPt p = negPt q) : p = q := by
  unfold negPt at h
  cases p
  cases q
  simp only [Pt.mk.injEq] at h ⊢
  exact ⟨by linarith [h.1], by linarith [h.2]⟩

/-- popBad commutes with point negation. -/
theorem popBad_negPt (p : Pt) : ∀ C : List Pt,
    popBad (negPt p) (C.map negPt) = (popBad p C).map negPt := by
  intro C
  induction C with
  | nil => rfl
  | cons a t ih =>
      cases t with
      | nil => rfl
      | cons b t' =>
          have hdef1 : popBad (negPt p) (negPt a :: negPt b :: (t'.map negPt)) =
              if cross2D (negPt b) (negPt a) (negPt p) ≤ 0 then
                popBad (negPt p) (negPt b :: (t'.map negPt))
              else negPt a :: negPt b :: (t'.map negPt) := rfl
          have hdef2 : popBad p (a :: b :: t') =
              if cross2D b a p ≤ 0 then popBad p (b :: t') else a :: b :: t' := rfl
          show popBad (negPt p) (negPt a :: negPt b :: (t'.map negPt)) = _
          rw [hdef1, hdef2, cross2D_negPt]
          by_cases hc : cross2D b a p ≤ 0
          · rw [if_pos hc, if_pos hc]
            exact ih
          · rw [if_neg hc, if_neg hc]
            rfl

/-- The whole scan commutes with point negation. -/
theorem buildChain_negPt (xs : List Pt) :
    buildChain (xs.map negPt) = (buildChain xs).map negPt := by
  have hfold : ∀ (l C : List Pt),
      (l.map negPt).foldl chainStep (C.map negPt) = (l.foldl chainStep C).map negPt := by
    intro l
    induction l with
    | nil => intro C; rfl
    | cons x t ih =>
        intro C
        have h1 : ((x :: t).map negPt).foldl chainStep (C.map negPt) =
            (t.map negPt).foldl chainStep (chainStep (C.map negPt) (negPt x)) := rfl
        have h2 : chainStep (C.map negPt) (negPt x) = (chainStep C x).map negPt := by
          show negPt x :: popBad (negPt x) (C.map negPt) = _
          rw [popBad_negPt x C]
          rfl
        rw [h1, h2]
        exact ih (chainStep C x)
  exact hfold xs []

/-- EdgesGe transports along point negation. -/
theorem EdgesGe_negPt (q : Pt) : ∀ C : List Pt,
    EdgesGe (negPt q) (C.map negPt) → EdgesGe q C := by
  intro C
  induction C with
  | nil => intro _; trivial
  | cons a t ih =>
      cases t with
      | nil => intro _; trivial
      | cons b t' =>
          intro h
          have h' : 0 ≤ cross2D (negPt b) (negPt a) (negPt q) ∧
              EdgesGe (negPt q) (negPt b :: (t'.map negPt)) := h
          refine ⟨?_, ih h'.2⟩
          rw [cross2D_negPt] at h'
          exact h'.1

/-- Indexed form of the chain edge property (top-first chain, edge from the
deeper point to the shallower one). -/
theorem EdgesGe_getD (q : Pt) : ∀ (C : List Pt) (i : ℕ), EdgesGe q C →
    i + 1 < C.length →
    0 ≤ cross2D (C.getD (i + 1) default) (C.getD i default) q := by
  intro C
  induction C with
  | nil =>
      intro i _ hi
      simp at hi
  | cons a t ih =>
      intro i h hi
      cases t with
      | nil => simp at hi
      | cons b t' =>
          have h' : 0 ≤ cross2D b a q ∧ EdgesGe q (b :: t') := h
          cases i with
          | zero => simpa using h'.1
          | succ j =>
              have hj : j + 1 < (b :: t').length := by
                simp only [List.length_cons] at hi ⊢
                omega
              have := ih j h'.2 hj
              simpa using this

/-- getD at index 0 of a non-empty list is its head. -/
theorem getD_zero_headI (l : List Pt) (h : l ≠ []) : l.getD 0 default = l.headI := by
  cases l with
  | nil => exact absurd rfl h
  | cons a t => rfl

/-- getD at the final index of a non-empty list is its last element. -/
theorem getD_last_getLastD (l : List Pt) (h : l ≠ []) :
    l.getD (l.length - 1) default = l.getLastD default := by
  induction l with
  | nil => exact absurd rfl h
  | cons a t ih =>
      cases t with
      | nil => rfl
      | cons b t' =>
          have h1 : (a :: b :: t').getD ((a :: b :: t').length - 1) default =
              (b :: t').getD ((b :: t').length - 1) default := by
            simp only [List.length_cons]
            rw [show b :: t' = (b :: t') from rfl]
            have : (a :: b :: t').getD (t'.length + 1) default =
                (b :: t').getD (t'.length) default := by
              simp [List.getD_cons_succ]
            simpa using this
          rw [h1, ih (by simp)]
          simp [List.getLastD_cons]

/-- getD through list reversal. -/
theorem reverse_getD (l : List Pt) (j : ℕ) (hj : j < l.length) :
    l.reverse.getD j default = l.getD (l.length - 1 - j) default := by
  rw [List.getD_eq_getElem?_getD, List.getD_eq_getElem?_getD]
  rw [List.getElem?_reverse (by simpa using hj)]

/-- The head of a reversed list is the last element. -/
theorem headI_reverse (l : List Pt) : l.reverse.headI = l.getLastD default := by
  by_cases hne : l = []
  · rw [hne]
    rfl
  · have hrne : l.reverse ≠ [] := by simpa using hne
    have h1 : l.reverse.getD 0 default = l.reverse.headI := getD_zero_headI _ hrne
    have h2 : l.reverse.getD 0 default = l.getD (l.length - 1 - 0) default :=
      reverse_getD l 0 (List.length_pos.mpr hne)
    rw [← h1, h2]
    simpa using getD_last_getLastD l hne

/-- The last element of a reversed list is the head. -/
theorem getLastD_reverse (l : List Pt) : l.reverse.getLastD default = l.headI := by
  have := headI_reverse l.reverse
  rw [List.reverse_reverse] at this
  rw [← this]

/-- getD commutes with dropLast below the last index. -/
theorem dropLast_getD (l : List Pt) (i : ℕ) (hi : i < l.length - 1) :
    l.dropLast.getD i default = l.getD i default := by
  rw [List.getD_eq_getElem _ _ (by simpa [List.length_dropLast] using hi),
    List.getD_eq_getElem _ _ (by omega)]
  exact List.getElem_dropLast l i (by simpa [List.length_dropLast] using hi)

/-- Left-to-right edge property of a chain, from the top-first form. -/
theorem chain_edges_lr (q : Pt) (C : List Pt) (hE : EdgesGe q C) (j : ℕ)
    (hj : j + 1 < C.length) :
    0 ≤ cross2D (C.reverse.getD j default) (C.reverse.getD (j + 1) default) q := by
  have h1 : C.reverse.getD j default = C.getD (C.length - 1 - j) default :=
    reverse_getD C j (by omega)
  have h2 : C.reverse.getD (j + 1) default = C.getD (C.length - 1 - (j + 1)) default :=
    reverse_getD C (j + 1) (by omega)
  have h3 : C.length - 1 - j = (C.length - 2 - j) + 1 := by omega
  have h4 : C.length - 1 - (j + 1) = C.length - 2 - j := by omega
  rw [h1, h2, h3, h4]
  exact EdgesGe_getD q C (C.length - 2 - j) hE (by omega)

/-- The Boolean hull membership test succeeds once every directed edge test
is non-negative. -/
theorem pointInConvexHull_true_of (hull : List Pt) (lat lon : ℚ)
    (h3 : 3 ≤ hull.length)
    (hedges : ∀ i, i < hull.length →
      0 ≤ edgeCrossAt (hull.getD i default) (hull.getD ((i + 1) % hull.length) default)
        lat lon) :
    pointInConvexHull lat lon hull = true := by
  unfold pointInConvexHull
  rw [if_neg (by omega)]
  rw [List.all_eq_true]
  intro i hi
  rw [List.mem_range] at hi
  simp only [Bool.not_eq_true', decide_eq_false_iff_not, not_lt]
  exact hedges i hi

/-- Assembly of the two half hulls: when every point-vs-edge test holds
along both chains and the chain endpoints agree, every cyclic edge of the
concatenated polygon passes the test. -/
theorem assembled_edges (L U : List Pt) (q : Pt)
    (hL2 : 2 ≤ L.length) (hU2 : 2 ≤ U.length)
    (hLA : ∀ j, j + 1 < L.length →
      0 ≤ cross2D (L.getD j default) (L.getD (j + 1) default) q)
    (hUA : ∀ j, j + 1 < U.length →
      0 ≤ cross2D (U.getD j default) (U.getD (j + 1) default) q)
    (hjunc1 : U.getD 0 default = L.getD (L.length - 1) default)
    (hjunc2 : U.getD (U.length - 1) default = L.getD 0 default) :
    ∀ i, i < (L.dropLast ++ U.dropLast).length →
      0 ≤ cross2D ((L.dropLast ++ U.dropLast).getD i default)
        ((L.dropLast ++ U.dropLast).getD
          ((i + 1) % (L.dropLast ++ U.dropLast).length) default) q := by
  have hlen : (L.dropLast ++ U.dropLast).length = (L.length - 1) + (U.length - 1) := by
    simp [List.length_dropLast]
  have hA : ∀ j, j < L.length - 1 →
      (L.dropLast ++ U.dropLast).getD j default = L.getD j default := by
    intro j hj
    rw [List.getD_append _ _ _ _ (by simpa [List.length_dropLast] using hj)]
    exact dropLast_getD L j hj
  have hB : ∀ j, L.length - 1 ≤ j → j < (L.length - 1) + (U.length - 1) →
      (L.dropLast ++ U.dropLast).getD j default = U.getD (j - (L.length - 1)) default := by
    intro j hj1 hj2
    rw [List.getD_append_right _ _ _ _ (by simpa [List.length_dropLast] using hj1)]
    rw [show L.dropLast.length = L.length - 1 from by simp [List.length_dropLast]]
    exact dropLast_getD U (j - (L.length - 1)) (by omega)
  intro i hi
  rw [hlen] at hi
  rw [hlen]
  rcases (by omega : i + 1 < L.length - 1 ∨ i + 1 = L.length - 1 ∨
      (L.length - 1 ≤ i ∧ i + 1 < (L.length - 1) + (U.length - 1)) ∨
      i + 1 = (L.length - 1) + (U.length - 1)) with hc | hc | ⟨hc1, hc2⟩ | hc
  · rw [Nat.mod_eq_of_lt (by omega), hA i (by omega), hA (i + 1) hc]
    exact hLA i (by omega)
  · rw [Nat.mod_eq_of_lt (by omega), hA i (by omega), hB (i + 1) (by omega) (by omega)]
    rw [show i + 1 - (L.length - 1) = 0 from by omega, hjunc1]
    rw [show i = L.length - 1 - 1 from by omega]
    have := hLA (L.length - 2) (by omega)
    rw [show L.length - 2 + 1 = L.length - 1 from by omega] at this
    rw [show L.length - 1 - 1 = L.length - 2 from by omega]
    exact this
  · rw [Nat.mod_eq_of_lt (by omega), hB i hc1 (by omega), hB (i + 1) (by omega) hc2]
    rw [show i + 1 - (L.length - 1) = (i - (L.length - 1)) + 1 from by omega]
    exact hUA (i - (L.length - 1)) (by omega)
  · have hieq : i = (L.length - 1) + (U.length - 1) - 1 := by omega
    rw [show (i + 1) % ((L.length - 1) + (U.length - 1)) = 0 from by
      rw [hc]; exact Nat.mod_self _]
    rw [hA 0 (by omega), ← hjunc2]
    rw [hB i (by omega) (by omega)]
    rw [show i - (L.length - 1) = U.length - 2 from by omega]
    have := hUA (U.length - 2) (by omega)
    rw [show U.length - 2 + 1 = U.length - 1 from by omega] at this
    exact this

/-- C1 amended: whenever the computed hull has at least 3 vertices (the
input points are not all collinear under the scan's strict left-turn
test), every input point lies inside or on the hull according to
pointInConvexHull. -/
theorem hull_containment_amended (points : List Pt)
    (h3 : 3 ≤ (computeConvexHull points).length) :
    ∀ q ∈ points, pointInConvexHull q.lat q.lon (computeConvexHull points) = true := by
  intro q hq
  by_cases hlt : points.length < 3
  · exfalso
    unfold computeConvexHull at h3
    rw [if_pos hlt] at h3
    omega
  · have heq : computeConvexHull points =
        (buildChain (sortPts points)).reverse.dropLast ++
          (buildChain (sortPts points).reverse).reverse.dropLast := by
      unfold computeConvexHull
      rw [if_neg hlt]
    have hperm := List.perm_insertionSort lexLe points
    have hsortPW : List.Pairwise lexLe (sortPts points) :=
      List.sorted_insertionSort lexLe points
    have hslen : (sortPts points).length = points.length := hperm.length_eq
    have hsne : sortPts points ≠ [] := by
      intro h
      rw [h] at hslen
      simp at hslen
      omega
    have hqs : q ∈ sortPts points := hperm.mem_iff.mpr hq
    have inv1 := buildChain_inv (sortPts points) hsne hsortPW
    have hE1 : EdgesGe q (buildChain (sortPts points)) := inv1.cover q hqs
    have hys'sort : List.Pairwise lexLe (((sortPts points).reverse).map negPt) := by
      rw [List.pairwise_map]
      have hrev : List.Pairwise (fun a b => lexLe b a) (sortPts points).reverse :=
        List.pairwise_reverse.mpr hsortPW
      exact hrev.imp (fun hab => (lexLe_negPt _ _).mpr hab)
    have hysne : ((sortPts points).reverse).map negPt ≠ [] := by
      simpa using hsne
    have inv2 := buildChain_inv _ hysne hys'sort
    have hqys : negPt q ∈ ((sortPts points).reverse).map negPt :=
      List.mem_map_of_mem negPt (List.mem_reverse.mpr hqs)
    have hE2' : EdgesGe (negPt q) (buildChain (((sortPts points).reverse).map negPt)) :=
      inv2.cover (negPt q) hqys
    rw [buildChain_negPt] at hE2'
    have hE2 : EdgesGe q (buildChain (sortPts points).reverse) :=
      EdgesGe_negPt q _ hE2'
    have hm2 : 2 ≤ (buildChain (sortPts points)).length :=
      buildChain_len2 _ (by omega)
    have hk2 : 2 ≤ (buildChain (sortPts points).reverse).length :=
      buildChain_len2 _ (by rw [List.length_reverse]; omega)
    have hrevne : (sortPts points).reverse ≠ [] := by
      simpa using hsne
    have hCl_ne : buildChain (sortPts points) ≠ [] := by
      intro h
      rw [h] at hm2
      simp at hm2
    have hCu_ne : buildChain (sortPts points).reverse ≠ [] := by
      intro h
      rw [h] at hk2
      simp at hk2
    have hLlen : (buildChain (sortPts points)).reverse.length =
        (buildChain (sortPts points)).length := List.length_reverse _
    have hUlen : (buildChain (sortPts points).reverse).reverse.length =
        (buildChain (sortPts points).reverse).length := List.length_reverse _
    -- junction equalities
    have hjunc1 : (buildChain (sortPts points).reverse).reverse.getD 0 default =
        (buildChain (sortPts points)).reverse.getD
          ((buildChain (sortPts points)).reverse.length - 1) default := by
      rw [getD_zero_headI _ (by simpa using hCu_ne), headI_reverse,
        buildChain_getLastD _ hrevne]
      rw [getD_last_getLastD _ (by simpa using hCl_ne), getLastD_reverse,
        buildChain_headI _ hsne]
      rw [headI_reverse]
    have hjunc2 : (buildChain (sortPts points).reverse).reverse.getD
        ((buildChain (sortPts points).reverse).reverse.length - 1) default =
        (buildChain (sortPts points)).reverse.getD 0 default := by
      rw [getD_last_getLastD _ (by simpa using hCu_ne), getLastD_reverse,
        buildChain_headI _ hrevne]
      rw [getD_zero_headI _ (by simpa using hCl_ne), headI_reverse,
        buildChain_getLastD _ hsne]
      rw [getLastD_reverse]
    have hLA : ∀ j, j + 1 < (buildChain (sortPts points)).reverse.length →
        0 ≤ cross2D ((buildChain (sortPts points)).reverse.getD j default)
          ((buildChain (sortPts points)).reverse.getD (j + 1) default) q := by
      intro j hj
      exact chain_edges_lr q _ hE1 j (by rw [hLlen] at hj; exact hj)
    have hUA : ∀ j, j + 1 < (buildChain (sortPts points).reverse).reverse.length →
        0 ≤ cross2D ((buildChain (sortPts points).reverse).reverse.getD j default)
          ((buildChain (sortPts points).reverse).reverse.getD (j + 1) default) q := by
      intro j hj
      exact chain_edges_lr q _ hE2 j (by rw [hUlen] at hj; exact hj)
    have hassembled := assembled_edges
      (buildChain (sortPts points)).reverse
      (buildChain (sortPts points).reverse).reverse q
      (by rw [hLlen]; exact hm2) (by rw [hUlen]; exact hk2)
      hLA hUA hjunc1 hjunc2
    rw [heq] at h3 ⊢
    refine pointInConvexHull_true_of _ _ _ h3 ?_
    intro i hi
    have := hassembled i hi
    exact this

/-- Counterexample to C1 as stated: three collinear sample points produce a
two-vertex "hull" (the strict left-turn test drops collinear points), and
pointInConvexHull returns false for any polygon with fewer than 3 vertices,
so not every input point of this 3-point set passes the containment test. -/
theorem hull_containment_cex :
    ¬ (∀ q ∈ ([⟨0, 0⟩, ⟨0, 1⟩, ⟨0, 2⟩] : List Pt),
        pointInConvexHull q.lat q.lon
          (computeConvexHull [⟨0, 0⟩, ⟨0, 1⟩, ⟨0, 2⟩]) = true) := by
  intro h
  have hcontr := h ⟨0, 0⟩ (by simp)
  norm_num [computeConvexHull, sortPts, buildChain, chainStep, popBad, cross2D,
    List.insertionSort, List.orderedInsert, lexLe, pointInConvexHull] at hcontr

/-- Witness for the amended C1 on a non-degenerate triangle. -/
theorem hull_containment_amended_witness :
    3 ≤ (computeConvexHull [⟨0, 0⟩, ⟨1, 0⟩, ⟨0, 1⟩]).length ∧
      ∀ q ∈ ([⟨0, 0⟩, ⟨1, 0⟩, ⟨0, 1⟩] : List Pt),
        pointInConvexHull q.lat q.lon
          (computeConvexHull [⟨0, 0⟩, ⟨1, 0⟩, ⟨0, 1⟩]) = true :=
  ⟨by norm_num [computeConvexHull, sortPts, buildChain, chainStep, popBad, cross2D,
      List.insertionSort, List.orderedInsert, lexLe],
   hull_containment_amended [⟨0, 0⟩, ⟨1, 0⟩, ⟨0, 1⟩]
     (by norm_num [computeConvexHull, sortPts, buildChain, chainStep, popBad, cross2D,
       List.insertionSort, List.orderedInsert, lexLe])⟩

/-! ### C8: hull buffering grows the enclosed area.

bufferConvexHull takes a square root, so this part of the embedding lives
over the reals. -/

/-- Geographic point with real coordinates, for the buffering code. -/
structure PtR where
  lat : ℝ
  lon : ℝ

instance : Inhabited PtR := ⟨⟨0, 0⟩⟩

/-- Real-valued conversion constants for the buffering code. -/
structure ConvR where
  metersPerDegLat : ℝ
  metersPerDegLon : ℝ

/-- Cross product for real points (lon as x, lat as y), as in cross2D. -/
def crossR (O A B : PtR) : ℝ :=
  (A.lon - O.lon) * (B.lat - O.lat) - (A.lat - O.lat) * (B.lon - O.lon)

/-- A list of vertices is a convex counter-clockwise hull when every vertex
is on the non-negative side of every directed edge (the pointInConvexHull
criterion applied to the hull's own vertices). -/
def ConvexCCW (hull : List PtR) : Prop :=
  ∀ i < hull.length, ∀ j < hull.length,
    0 ≤ crossR (hull.getD i default) (hull.getD ((i + 1) % hull.length) default)
      (hull.getD j default)

/-- bufferConvexHull (src/js/app.js lines 959-999): push every vertex
radially outward from the vertex centroid by the buffer distance, with
per-axis meter/degree conversion; vertices within a millimeter of the
centroid pass through unchanged. -/
noncomputable def bufferVertex (conv : ConvR) (centLat centLon bufferMeters : ℝ)
    (v : PtR) : PtR :=
  let dLat := v.lat - centLat
  let dLon := v.lon - centLon
  let dLatM := dLat * conv.metersPerDegLat
  let dLonM := dLon * conv.metersPerDegLon
  let dist := Real.sqrt (dLatM * dLatM + dLonM * dLonM)
  if dist < 0.001 then PtR.mk v.lat v.lon
  else PtR.mk (v.lat + dLatM / dist * (bufferMeters / conv.metersPerDegLat))
    (v.lon + dLonM / dist * (bufferMeters / conv.metersPerDegLon))

noncomputable def bufferConvexHull (conv : ConvR) (hull : List PtR)
    (bufferMeters : ℝ) : List PtR :=
  if hull.length < 3 then hull
  else
    hull.map (bufferVertex conv ((hull.map PtR.lat).sum / hull.length)
      ((hull.map PtR.lon).sum / hull.length) bufferMeters)

/-- Shoelace sum of a vertex polygon over its cyclic edges. -/
noncomputable def shoelaceSum (poly : List PtR) : ℝ :=
  ∑ i ∈ Finset.range poly.length,
    ((poly.getD i default).lon * (poly.getD ((i + 1) % poly.length) default).lat -
     (poly.getD ((i + 1) % poly.length) default).lon * (poly.getD i default).lat)

/-- Enclosed area of a vertex polygon: half the absolute shoelace sum. -/
noncomputable def polygonArea (poly : List PtR) : ℝ := |shoelaceSum poly| / 2

/-- Summing a cyclically shifted indexing over a full period changes
nothing. -/
theorem sum_mod_shift (n : ℕ) (g : ℕ → ℝ) :
    ∑ i ∈ Finset.range n, g ((i + 1) % n) = ∑ i ∈ Finset.range n, g i := by
  cases n with
  | zero => simp
  | succ m =>
      have hcong : ∀ i ∈ Finset.range m, g ((i + 1) % (m + 1)) = g (i + 1) := by
        intro i hi
        have hilt := Finset.mem_range.mp hi
        rw [Nat.mod_eq_of_lt (by omega)]
      calc ∑ i ∈ Finset.range (m + 1), g ((i + 1) % (m + 1))
          = (∑ i ∈ Finset.range m, g ((i + 1) % (m + 1))) + g ((m + 1) % (m + 1)) :=
            Finset.sum_range_succ _ m
        _ = (∑ i ∈ Finset.range m, g (i + 1)) + g 0 := by
            rw [Finset.sum_congr rfl hcong, Nat.mod_self]
        _ = ∑ i ∈ Finset.range (m + 1), g i := (Finset.sum_range_succ' g m).symm

/-- Sum of a projection over a list as an indexed range sum. -/
theorem map_sum_eq_range (g : PtR → ℝ) : ∀ l : List PtR,
    (l.map g).sum = ∑ i ∈ Finset.range l.length, g (l.getD i default) := by
  intro l
  induction l with
  | nil => simp
  | cons a t ih =>
      rw [List.map_cons, List.sum_cons, ih]
      rw [show (a :: t).length = t.length + 1 from rfl, Finset.sum_range_succ' _ t.length]
      simp [List.getD_cons_succ, List.getD_cons_zero]
      ring

/-- Recentring a cyclic shoelace sum around an arbitrary origin changes
nothing: the correction terms telescope over the full period. -/
theorem fan_general (n : ℕ) (A B : ℕ → ℝ) (cx cy : ℝ) :
    ∑ i ∈ Finset.range n,
      ((A i - cx) * (B ((i + 1) % n) - cy) - (A ((i + 1) % n) - cx) * (B i - cy)) =
    ∑ i ∈ Finset.range n, (A i * B ((i + 1) % n) - A ((i + 1) % n) * B i) := by
  have hterm : ∀ i ∈ Finset.range n,
      (A i - cx) * (B ((i + 1) % n) - cy) - (A ((i + 1) % n) - cx) * (B i - cy) =
      (A i * B ((i + 1) % n) - A ((i + 1) % n) * B i) +
        (cy * A ((i + 1) % n) - cy * A i) + (cx * B i - cx * B ((i + 1) % n)) := by
    intro i _
    ring
  rw [Finset.sum_congr rfl hterm]
  simp only [Finset.sum_add_distrib, Finset.sum_sub_distrib, ← Finset.mul_sum]
  rw [sum_mod_shift n A, sum_mod_shift n B]
  ring

/-- Shoelace sum as a fan around an arbitrary center point. -/
theorem shoelace_fan (poly : List PtR) (c : PtR) :
    shoelaceSum poly = ∑ i ∈ Finset.range poly.length,
      (((poly.getD i default).lon - c.lon) *
        ((poly.getD ((i + 1) % poly.length) default).lat - c.lat) -
       ((poly.getD ((i + 1) % poly.length) default).lon - c.lon) *
        ((poly.getD i default).lat - c.lat)) := by
  unfold shoelaceSum
  exact (fan_general poly.length (fun i => (poly.getD i default).lon)
    (fun i => (poly.getD i default).lat) c.lon c.lat).symm

/-- Cyclic invariance of the triple cross product. -/
theorem crossR_cyclic (a b c : PtR) : crossR c a b = crossR a b c := by
  unfold crossR
  ring

/-- The radial scaling factor a vertex undergoes in bufferVertex: 1 for
near-centroid vertices, otherwise 1 plus the buffer over the metric
distance to the centroid. -/
noncomputable def muV (conv : ConvR) (bufferMeters centLat centLon : ℝ)
    (v : PtR) : ℝ :=
  let dLatM := (v.lat - centLat) * conv.metersPerDegLat
  let dLonM := (v.lon - centLon) * conv.metersPerDegLon
  let dist := Real.sqrt (dLatM * dLatM + dLonM * dLonM)
  if dist < 0.001 then 1 else 1 + bufferMeters / dist

/-- The scaling factor is at least 1 for a nonnegative buffer. -/
theorem one_le_muV (conv : ConvR) (bufferMeters centLat centLon : ℝ)
    (v : PtR) (hbuf : 0 ≤ bufferMeters) :
    1 ≤ muV conv bufferMeters centLat centLon v := by
  simp only [muV]
  split_ifs with h
  · exact le_refl 1
  · have hd : (0 : ℝ) < Real.sqrt
        ((v.lat - centLat) * conv.metersPerDegLat *
          ((v.lat - centLat) * conv.metersPerDegLat) +
         (v.lon - centLon) * conv.metersPerDegLon *
          ((v.lon - centLon) * conv.metersPerDegLon)) :=
      lt_of_lt_of_le (by norm_num) (not_lt.mp h)
    have := div_nonneg hbuf hd.le
    linarith

/-- Latitude of a buffered vertex relative to the centroid is the original
offset scaled by muV. -/
theorem bufferVertex_lat (conv : ConvR) (hmLat : conv.metersPerDegLat ≠ 0)
    (centLat centLon bufferMeters : ℝ) (v : PtR) :
    (bufferVertex conv centLat centLon bufferMeters v).lat - centLat =
      muV conv bufferMeters centLat centLon v * (v.lat - centLat) := by
  simp only [bufferVertex, muV]
  split_ifs with h
  · simp
  · have hd : (0 : ℝ) < Real.sqrt
        ((v.lat - centLat) * conv.metersPerDegLat *
          ((v.lat - centLat) * conv.metersPerDegLat) +
         (v.lon - centLon) * conv.metersPerDegLon *
          ((v.lon - centLon) * conv.metersPerDegLon)) :=
      lt_of_lt_of_le (by norm_num) (not_lt.mp h)
    field_simp
    ring

/-- Longitude of a buffered vertex relative to the centroid is the original
offset scaled by muV. -/
theorem bufferVertex_lon (conv : ConvR) (hmLon : conv.metersPerDegLon ≠ 0)
    (centLat centLon bufferMeters : ℝ) (v : PtR) :
    (bufferVertex conv centLat centLon bufferMeters v).lon - centLon =
      muV conv bufferMeters centLat centLon v * (v.lon - centLon) := by
  simp only [bufferVertex, muV]
  split_ifs with h
  · simp
  · have hd : (0 : ℝ) < Real.sqrt
        ((v.lat - centLat) * conv.metersPerDegLat *
          ((v.lat - centLat) * conv.metersPerDegLat) +
         (v.lon - centLon) * conv.metersPerDegLon *
          ((v.lon - centLon) * conv.metersPerDegLon)) :=
      lt_of_lt_of_le (by norm_num) (not_lt.mp h)
    field_simp
    ring

/-- getD on a mapped list at an in-range index. -/
theorem getD_map_lt (f : PtR → PtR) (l : List PtR) (i : ℕ)
    (h : i < l.length) :
    (l.map f).getD i default = f (l.getD i default) := by
  rw [List.getD_eq_getElem _ _ (by simpa using h), List.getD_eq_getElem _ _ h]
  simp

/-- The cross product against the vertex centroid is the average of the
cross products against the vertices. -/
theorem crossR_centroid (a b : PtR) (l : List PtR) (hn : 0 < l.length) :
    (l.length : ℝ) * crossR a b
        ⟨(l.map PtR.lat).sum / l.length, (l.map PtR.lon).sum / l.length⟩ =
      ∑ j ∈ Finset.range l.length, crossR a b (l.getD j default) := by
  have hnR : ((l.length : ℝ)) ≠ 0 := by
    have : l.length ≠ 0 := Nat.pos_iff_ne_zero.mp hn
    exact_mod_cast this
  have hterm : ∀ j ∈ Finset.range l.length,
      crossR a b (l.getD j default) =
      (b.lon - a.lon) * (l.getD j default).lat -
        (b.lat - a.lat) * (l.getD j default).lon -
        ((b.lon - a.lon) * a.lat - (b.lat - a.lat) * a.lon) := by
    intro j _
    simp only [crossR]
    ring
  rw [Finset.sum_congr rfl hterm]
  simp only [Finset.sum_sub_distrib, ← Finset.mul_sum, Finset.sum_const,
    Finset.card_range, nsmul_eq_mul]
  rw [← map_sum_eq_range PtR.lat l, ← map_sum_eq_range PtR.lon l]
  simp only [crossR]
  field_simp
  ring

/-- Each fan triangle of a convex CCW hull around its vertex centroid has a
nonnegative signed area. -/
theorem fan_nonneg (hull : List PtR) (hcc : ConvexCCW hull)
    (hn : 0 < hull.length) (i : ℕ) (hi : i < hull.length) :
    0 ≤ ((hull.getD i default).lon - (hull.map PtR.lon).sum / hull.length) *
        ((hull.getD ((i + 1) % hull.length) default).lat -
          (hull.map PtR.lat).sum / hull.length) -
        ((hull.getD ((i + 1) % hull.length) default).lon -
          (hull.map PtR.lon).sum / hull.length) *
        ((hull.getD i default).lat - (hull.map PtR.lat).sum / hull.length) := by
  have hkey := crossR_centroid (hull.getD i default)
    (hull.getD ((i + 1) % hull.length) default) hull hn
  have hsum : 0 ≤ ∑ j ∈ Finset.range hull.length,
      crossR (hull.getD i default) (hull.getD ((i + 1) % hull.length) default)
        (hull.getD j default) :=
    Finset.sum_nonneg (fun j hj => hcc i hi j (Finset.mem_range.mp hj))
  have hnR : (0 : ℝ) < hull.length := by exact_mod_cast hn
  have h1 : 0 ≤ crossR (hull.getD i default)
      (hull.getD ((i + 1) % hull.length) default)
      ⟨(hull.map PtR.lat).sum / hull.length,
        (hull.map PtR.lon).sum / hull.length⟩ := by
    nlinarith [hkey, hsum, hnR]
  have hplat : (⟨(hull.map PtR.lat).sum / hull.length,
      (hull.map PtR.lon).sum / hull.length⟩ : PtR).lat =
      (hull.map PtR.lat).sum / hull.length := rfl
  have hplon : (⟨(hull.map PtR.lat).sum / hull.length,
      (hull.map PtR.lon).sum / hull.length⟩ : PtR).lon =
      (hull.map PtR.lon).sum / hull.length := rfl
  simp only [crossR, hplat, hplon] at h1
  nlinarith [h1]

/-- C8: for every convex counter-clockwise hull with at least 3 vertices,
positive per-axis meter conversions and a positive buffer distance, the
polygon returned by bufferConvexHull encloses an area greater than or equal
to the area of the original hull: every vertex moves radially away from the
vertex centroid by a factor of at least 1, which scales every fan triangle
of the (nonnegative) shoelace sum up. -/
theorem bufferConvexHull_area_mono (conv : ConvR) (hull : List PtR)
    (bufferMeters : ℝ) (hmLat : 0 < conv.metersPerDegLat)
    (hmLon : 0 < conv.metersPerDegLon) (hbuf : 0 < bufferMeters)
    (h3 : 3 ≤ hull.length) (hcc : ConvexCCW hull) :
    polygonArea hull ≤ polygonArea (bufferConvexHull conv hull bufferMeters) := by
  have hn : 0 < hull.length := by omega
  have hnne : ¬ hull.length < 3 := by omega
  set cLat := (hull.map PtR.lat).sum / hull.length with hcLat
  set cLon := (hull.map PtR.lon).sum / hull.length with hcLon
  set f := bufferVertex conv cLat cLon bufferMeters with hf
  have hbe : bufferConvexHull conv hull bufferMeters = hull.map f := by
    rw [bufferConvexHull, if_neg hnne, ← hcLat, ← hcLon, ← hf]
  have hlen : (hull.map f).length = hull.length := List.length_map _ _
  have hfan := shoelace_fan hull ⟨cLat, cLon⟩
  have hfan' := shoelace_fan (hull.map f) ⟨cLat, cLon⟩
  rw [hlen] at hfan'
  simp only [show (⟨cLat, cLon⟩ : PtR).lat = cLat from rfl,
    show (⟨cLat, cLon⟩ : PtR).lon = cLon from rfl] at hfan hfan'
  have hmain : shoelaceSum hull ≤ shoelaceSum (hull.map f) := by
    rw [hfan, hfan']
    apply Finset.sum_le_sum
    intro i hi
    have hi' : i < hull.length := Finset.mem_range.mp hi
    have hi1 : (i + 1) % hull.length < hull.length := Nat.mod_lt _ (by omega)
    rw [getD_map_lt f hull i hi', getD_map_lt f hull _ hi1]
    have hlatA := bufferVertex_lat conv (ne_of_gt hmLat) cLat cLon bufferMeters
      (hull.getD i default)
    have hlatB := bufferVertex_lat conv (ne_of_gt hmLat) cLat cLon bufferMeters
      (hull.getD ((i + 1) % hull.length) default)
    have hlonA := bufferVertex_lon conv (ne_of_gt hmLon) cLat cLon bufferMeters
      (hull.getD i default)
    have hlonB := bufferVertex_lon conv (ne_of_gt hmLon) cLat cLon bufferMeters
      (hull.getD ((i + 1) % hull.length) default)
    rw [← hf] at hlatA hlatB hlonA hlonB
    have ha : 1 ≤ muV conv bufferMeters cLat cLon (hull.getD i default) :=
      one_le_muV conv bufferMeters cLat cLon _ hbuf.le
    have hb : 1 ≤ muV conv bufferMeters cLat cLon
        (hull.getD ((i + 1) % hull.length) default) :=
      one_le_muV conv bufferMeters cLat cLon _ hbuf.le
    have hab : 1 ≤ muV conv bufferMeters cLat cLon (hull.getD i default) *
        muV conv bufferMeters cLat cLon
          (hull.getD ((i + 1) % hull.length) default) := by
      nlinarith [ha, hb]
    have hnn := fan_nonneg hull hcc hn i hi'
    rw [← hcLat, ← hcLon] at hnn
    rw [hlatA, hlatB, hlonA, hlonB]
    nlinarith [hnn, hab]
  have h0 : 0 ≤ shoelaceSum hull := by
    rw [hfan]
    apply Finset.sum_nonneg
    intro i hi
    have hnn := fan_nonneg hull hcc hn i (Finset.mem_range.mp hi)
    rw [← hcLat, ← hcLon] at hnn
    exact hnn
  rw [hbe]
  simp only [polygonArea]
  rw [abs_of_nonneg h0, abs_of_nonneg (le_trans h0 hmain)]
  linarith

/-- Witness for bufferConvexHull_area_mono at a concrete CCW triangle with
unit conversion constants and a 1-meter buffer. -/
theorem bufferConvexHull_area_mono_witness :
    polygonArea [PtR.mk 0 0, PtR.mk 0 1, PtR.mk 1 0] ≤
      polygonArea (bufferConvexHull ⟨1, 1⟩
        [PtR.mk 0 0, PtR.mk 0 1, PtR.mk 1 0] 1) :=
  bufferConvexHull_area_mono ⟨1, 1⟩ [PtR.mk 0 0, PtR.mk 0 1, PtR.mk 1 0] 1
    (by norm_num) (by norm_num) (by norm_num) (by norm_num)
    (by
      intro i hi j hj
      simp only [List.length_cons, List.length_nil] at hi hj
      interval_cases i <;> interval_cases j <;>
        norm_num [crossR, List.getD_cons_zero, List.getD_cons_succ])
